import Mathlib

/-!
The container `aisdi::HashMap` of `src/HashMap.h`: a fixed table of chained buckets.

Shallow embedding of the class template `aisdi::HashMap<KeyType, ValueType>` and of its
`ConstIterator`, followed by theorems about the embedded operations.

Modelling choices, each taken from the source:

* `KeyType` is a signed integral type (the hasher applies `%` to the key); keys are `Int`.
* `table` is a `std::vector` of `TABLE_SIZE` lists.  It is a function from the bucket index to
  the chain, and every read `table[index]` is guarded: an index that is not below `TABLE_SIZE`
  is an out-of-bounds access, which is undefined behaviour (`Fault.undefined`).
* a list iterator is the position inside its chain; the position equal to the chain length is
  the chain's `end()`.  A cursor is (bucket index, position); the `map` pointer is left out
  because every cursor is only ever compared with cursors of the map it was taken from.
* `throw std::out_of_range(what)` is `Fault.out_of_range what`.
* `size_type` values are natural numbers.  `size++` cannot wrap (the entries are in memory);
  `--size` on zero wraps to `2^64 - 1`; `--index` on zero wraps and then reads outside the table.
-/

namespace aisdi

/-- The bucket count: `#define TABLE_SIZE 1000000`. -/
def TABLE_SIZE : Nat := 1000000

/-- What an operation does when it does not return normally. -/
inductive Fault where
  /-- The exception `std::out_of_range` carrying its `what()` text. -/
  | out_of_range (what : String)
  /-- Undefined behaviour: an out-of-bounds `table[index]`, a dereference or an increment of a
  chain's `end()`, or an `erase` of it. -/
  | undefined
  deriving DecidableEq, Repr

/-- The state of a `ConstIterator` / `Iterator`: `index` and `listIterator`. -/
structure Cursor where
  index : Nat
  pos : Nat
  deriving DecidableEq, Repr

/-- The data members of `HashMap`: `beginIndex`, `endIndex`, `size`, `table`. -/
structure HashMap (V : Type) where
  beginIndex : Nat
  endIndex : Nat
  size : Nat
  table : Nat → List (Int × V)

variable {V : Type}

/-- The hasher `getHash`: `return (key) % (TABLE_SIZE);` is the truncated remainder of the signed key,
converted to the unsigned 64-bit `size_type`. -/
def getHash (key : Int) : Nat :=
  ((Int.tmod key (TABLE_SIZE : Int)) % (2 ^ 64 : Int)).toNat

/-- The default constructor `HashMap()`. -/
def HashMap.empty : HashMap V :=
  { beginIndex := TABLE_SIZE, endIndex := 0, size := 0, table := fun _ => [] }

/-- The vector access `table[index]` (also `getListAtIndexReference(index)`). -/
def HashMap.tableAt (m : HashMap V) (index : Nat) : Except Fault (List (Int × V)) :=
  if index < TABLE_SIZE then .ok (m.table index) else .error .undefined

/-- The accessor `getSize`. -/
def HashMap.getSize (m : HashMap V) : Nat := m.size

/-- The query `isEmpty`: `!getSize()`. -/
def HashMap.isEmpty (m : HashMap V) : Bool := m.getSize == 0

/-- The accessor `getBeginIndex`. -/
def HashMap.getBeginIndex (m : HashMap V) : Nat := m.beginIndex

/-- The accessor `getEndIndex`. -/
def HashMap.getEndIndex (m : HashMap V) : Nat := m.endIndex

/-- The end cursor `cend()` / `end()`: `ConstIterator(this, endIndex, table[endIndex].end())`. -/
def HashMap.cend (m : HashMap V) : Except Fault Cursor := do
  let l ← m.tableAt m.endIndex
  pure ⟨m.endIndex, l.length⟩

/-- The begin cursor `cbegin()` / `begin()`. -/
def HashMap.cbegin (m : HashMap V) : Except Fault Cursor :=
  if m.isEmpty then m.cend
  else do
    let _ ← m.tableAt m.beginIndex
    pure ⟨m.beginIndex, 0⟩

/-- The loop of `find` over one chain: the position of the first entry whose key is `key`. -/
def findPos (key : Int) : List (Int × V) → Option Nat
  | [] => none
  | e :: rest => if e.1 = key then some 0 else (findPos key rest).map (· + 1)

/-- The lookup `find(key)`. -/
def HashMap.find (m : HashMap V) (key : Int) : Except Fault Cursor := do
  let index := getHash key
  let searchedList ← m.tableAt index
  match findPos key searchedList with
  | some p => pure ⟨index, p⟩
  | none => m.cend

/-- The dereference `operator*` (and `operator->`) of a cursor. -/
def HashMap.deref (m : HashMap V) (c : Cursor) : Except Fault (Int × V) := do
  let e ← m.cend
  if c = e then throw (.out_of_range "Dereferencing map end")
  let l ← m.tableAt c.index
  match l[c.pos]? with
  | some x => pure x
  | none => throw .undefined

/-- The subscript `operator[]`: the map afterwards and the place of the value it returns a
reference to. -/
def HashMap.index (m : HashMap V) [Inhabited V] (key : Int) :
    Except Fault (HashMap V × Cursor) := do
  let found ← m.find key
  let e ← m.cend
  if found ≠ e then
    let _ ← m.deref found
    pure (m, found)
  else
    let index := getHash key
    let l ← m.tableAt index
    pure ({ size := m.size + 1
            table := Function.update m.table index (l ++ [(key, default)])
            beginIndex := min m.beginIndex index
            endIndex := max m.endIndex index }, ⟨index, l.length⟩)

/-- A write through a reference to the `second` of the entry at a place. -/
def HashMap.store (m : HashMap V) (c : Cursor) (v : V) : Except Fault (HashMap V) := do
  let l ← m.tableAt c.index
  match l[c.pos]? with
  | some x => pure { m with table := Function.update m.table c.index (l.set c.pos (x.1, v)) }
  | none => throw .undefined

/-- The statement `map[key] = v`. -/
def HashMap.assign (m : HashMap V) [Inhabited V] (key : Int) (v : V) :
    Except Fault (HashMap V) := do
  let r ← m.index key
  r.1.store r.2 v

/-- The lookup `valueOf(key)`. -/
def HashMap.valueOf (m : HashMap V) (key : Int) : Except Fault V := do
  let found ← m.find key
  let again ← m.find key
  let e ← m.cend
  if again ≠ e then
    let x ← m.deref found
    pure x.2
  else throw (.out_of_range "Element does no exist")

/-- The decrement `--size` of a `size_type`. -/
def decSize (n : Nat) : Nat := if n = 0 then 2 ^ 64 - 1 else n - 1

/-- The removal `remove(const const_iterator &it)`. -/
def HashMap.removeAt (m : HashMap V) (it : Cursor) : Except Fault (HashMap V) := do
  let e ← m.cend
  if it = e then throw (.out_of_range "Tried to remove end!")
  let index := it.index
  let size := decSize m.size
  let l ← m.tableAt index
  if it.pos < l.length then
    pure { m with size := size, table := Function.update m.table index (l.eraseIdx it.pos) }
  else throw .undefined

/-- The removal `remove(const key_type &key)`. -/
def HashMap.remove (m : HashMap V) (key : Int) : Except Fault (HashMap V) := do
  let found ← m.find key
  let e ← m.cend
  if found = e then throw (.out_of_range "Tried to remove undefined element")
  m.removeAt found

/-- The loop `while (getListAtIndexReference(++index).empty())` of `operator++`.  The first argument
is the distance from `index` to the end of the table: when it is zero, `++index` is outside the
table. -/
def HashMap.scanUp (m : HashMap V) (endIndex : Nat) : Nat → Nat → Except Fault Cursor
  | 0, _ => .error .undefined
  | room + 1, index => do
    let index := index + 1
    let l ← m.tableAt index
    if l.isEmpty then
      if index > endIndex then m.cend else m.scanUp endIndex room index
    else pure ⟨index, 0⟩

/-- The pre-increment `operator++` of a cursor. -/
def HashMap.advance (m : HashMap V) (c : Cursor) : Except Fault Cursor := do
  let e ← m.cend
  if c = e then throw (.out_of_range "Tried to increment collection end")
  let l ← m.tableAt c.index
  if l.length ≤ c.pos then throw .undefined
  if c.pos + 1 ≠ l.length then pure ⟨c.index, c.pos + 1⟩
  else m.scanUp m.getEndIndex (TABLE_SIZE - c.index) c.index

/-- The loop `while (getListAtIndexReference(--index).empty())` of `operator--`, by recursion on
`index`: at zero, `--index` wraps and the read is outside the table. -/
def HashMap.scanDown (m : HashMap V) (beginIndex : Nat) : Nat → Except Fault Cursor
  | 0 => .error .undefined
  | index + 1 => do
    let l ← m.tableAt index
    if l.isEmpty then
      if index < beginIndex then m.cbegin else m.scanDown beginIndex index
    else pure ⟨index, l.length⟩

/-- The pre-decrement `operator--` of a cursor. -/
def HashMap.retreat (m : HashMap V) (c : Cursor) : Except Fault Cursor := do
  let b ← m.cbegin
  if c = b then throw (.out_of_range "Tried to decrement collection begin")
  let _ ← m.tableAt c.index
  if c.pos ≠ 0 then pure ⟨c.index, c.pos - 1⟩
  else m.scanDown m.getBeginIndex c.index

/-- The constructor `HashMap(std::initializer_list<value_type> list)`: the body of its loop, from
the map built so far. -/
def HashMap.ofListLoop [Inhabited V] (m : HashMap V) : List (Int × V) → Except Fault (HashMap V)
  | [] => pure m
  | item :: rest => do
    let key := item.1
    let value := item.2
    let index := getHash key
    let m1 ← m.assign key value
    let m2 : HashMap V :=
      { m1 with beginIndex := min m1.beginIndex index, endIndex := max m1.endIndex index }
    m2.ofListLoop rest

/-- The constructor `HashMap(std::initializer_list<value_type> list)`. -/
def HashMap.ofList [Inhabited V] (list : List (Int × V)) : Except Fault (HashMap V) :=
  (HashMap.empty : HashMap V).ofListLoop list

/-- The caller's loop `for (it = begin(); it != end(); ++it) visit(*it)` from a cursor: the
entries visited.  The first argument bounds the number of visits; `none` means the bound was
reached before the loop ended. -/
def HashMap.traverseFrom (m : HashMap V) :
    Nat → Cursor → Option (Except Fault (List (Int × V)))
  | 0, c =>
    match m.cend with
    | .error f => some (.error f)
    | .ok e => if c = e then some (.ok []) else none
  | fuel + 1, c =>
    match m.cend with
    | .error f => some (.error f)
    | .ok e =>
      if c = e then some (.ok [])
      else
        match m.deref c with
        | .error f => some (.error f)
        | .ok x =>
          match m.advance c with
          | .error f => some (.error f)
          | .ok c' =>
            match m.traverseFrom fuel c' with
            | none => none
            | some (.error f) => some (.error f)
            | some (.ok xs) => some (.ok (x :: xs))

/-- The forward traversal from `begin()` to `end()`. -/
def HashMap.traverse (m : HashMap V) (fuel : Nat) : Option (Except Fault (List (Int × V))) :=
  match m.cbegin with
  | .error f => some (.error f)
  | .ok b => m.traverseFrom fuel b

/-- The caller's loop `while (it != begin()) { --it; visit(*it); }` from a cursor: the entries
visited.  The first argument bounds the number of visits. -/
def HashMap.traverseBackFrom (m : HashMap V) :
    Nat → Cursor → Option (Except Fault (List (Int × V)))
  | 0, c =>
    match m.cbegin with
    | .error f => some (.error f)
    | .ok b => if c = b then some (.ok []) else none
  | fuel + 1, c =>
    match m.cbegin with
    | .error f => some (.error f)
    | .ok b =>
      if c = b then some (.ok [])
      else
        match m.retreat c with
        | .error f => some (.error f)
        | .ok c' =>
          match m.deref c' with
          | .error f => some (.error f)
          | .ok x =>
            match m.traverseBackFrom fuel c' with
            | none => none
            | some (.error f) => some (.error f)
            | some (.ok xs) => some (.ok (x :: xs))

/-- The backward traversal from `end()` down to `begin()`. -/
def HashMap.traverseBack (m : HashMap V) (fuel : Nat) :
    Option (Except Fault (List (Int × V))) :=
  match m.cend with
  | .error f => some (.error f)
  | .ok e => m.traverseBackFrom fuel e

/-- The loop of `operator==`: `for (auto thisIt = begin(); thisIt != end(); ++thisIt)` with
`otherIt` advanced in step.  The first argument bounds the number of iterations. -/
def HashMap.eqLoop [DecidableEq V] (m other : HashMap V) :
    Nat → Cursor → Cursor → Option (Except Fault Bool)
  | 0, thisIt, _ =>
    match m.cend with
    | .error f => some (.error f)
    | .ok e => if thisIt = e then some (.ok true) else none
  | fuel + 1, thisIt, otherIt =>
    match m.cend with
    | .error f => some (.error f)
    | .ok e =>
      if thisIt = e then some (.ok true)
      else
        match m.deref thisIt with
        | .error f => some (.error f)
        | .ok x =>
          match other.deref otherIt with
          | .error f => some (.error f)
          | .ok y =>
            if x.2 ≠ y.2 then some (.ok false)
            else
              match other.advance otherIt with
              | .error f => some (.error f)
              | .ok otherIt' =>
                match m.advance thisIt with
                | .error f => some (.error f)
                | .ok thisIt' => m.eqLoop other fuel thisIt' otherIt'

/-- The comparison `operator==`. -/
def HashMap.equals [DecidableEq V] (m other : HashMap V) (fuel : Nat) :
    Option (Except Fault Bool) :=
  if m.getSize ≠ other.getSize then some (.ok false)
  else
    match other.cbegin with
    | .error f => some (.error f)
    | .ok otherIt =>
      match m.cbegin with
      | .error f => some (.error f)
      | .ok thisIt => m.eqLoop other fuel thisIt otherIt

/-- The comparison `operator!=`: `!(*this == other)`. -/
def HashMap.notEquals [DecidableEq V] (m other : HashMap V) (fuel : Nat) :
    Option (Except Fault Bool) :=
  match m.equals other fuel with
  | none => none
  | some (.error f) => some (.error f)
  | some (.ok b) => some (.ok (!b))

/-- The calls a client makes on a map. -/
inductive Op (V : Type) where
  /-- The expression `map[key]`. -/
  | index (key : Int)
  /-- The statement `map[key] = v`. -/
  | assign (key : Int) (v : V)
  /-- The call `map.remove(key)`. -/
  | remove (key : Int)
  /-- The call `map.remove(it)`. -/
  | removeAt (it : Cursor)

/-- One call on a map. -/
def HashMap.call [Inhabited V] (m : HashMap V) : Op V → Except Fault (HashMap V)
  | .index key => (m.index key).map Prod.fst
  | .assign key v => m.assign key v
  | .remove key => m.remove key
  | .removeAt it => m.removeAt it

/-- The keys a call leaves live, from the keys that were live before it and the outcome of the
call: an index-or-insert that returns makes its key live, a removal that returns ends the life of
the key it removed, a call that throws changes nothing. -/
def HashMap.liveAfter (m : HashMap V) (live : Finset Int) (ok : Bool) : Op V → Finset Int
  | .index key => if ok then insert key live else live
  | .assign key _ => if ok then insert key live else live
  | .remove key => if ok then live.erase key else live
  | .removeAt it =>
    if ok then
      match (m.table it.index)[it.pos]? with
      | some x => live.erase x.1
      | none => live
    else live

/-- A sequence of calls, failed calls included: a call that throws `std::out_of_range` has thrown
before any member was written, so the caller goes on with the map as it was; after undefined
behaviour there is no map to go on with.  The second component is the set of keys inserted and
not since removed. -/
def HashMap.run [Inhabited V] (m : HashMap V) (live : Finset Int) :
    List (Op V) → Option (HashMap V × Finset Int)
  | [] => some (m, live)
  | op :: rest =>
    match m.call op with
    | .ok m' => m'.run (m.liveAfter live true op) rest
    | .error (.out_of_range _) => m.run (m.liveAfter live false op) rest
    | .error .undefined => none

/-- Maps built from the empty map by index-or-insert calls only. -/
inductive Built [Inhabited V] : HashMap V → Prop where
  | empty : Built HashMap.empty
  | index {m m' : HashMap V} {c : Cursor} (key : Int) :
      Built m → m.index key = .ok (m', c) → Built m'
  | assign {m m' : HashMap V} (key : Int) (v : V) :
      Built m → m.assign key v = .ok m' → Built m'

/-- Maps reachable from the empty map by index-or-insert and `remove(key)` calls. -/
inductive Reachable [Inhabited V] : HashMap V → Prop where
  | empty : Reachable HashMap.empty
  | index {m m' : HashMap V} {c : Cursor} (key : Int) :
      Reachable m → m.index key = .ok (m', c) → Reachable m'
  | assign {m m' : HashMap V} (key : Int) (v : V) :
      Reachable m → m.assign key v = .ok m' → Reachable m'
  | remove {m m' : HashMap V} (key : Int) :
      Reachable m → m.remove key = .ok m' → Reachable m'

/-- The chains of `n` consecutive buckets from bucket `i` on, one after the other. -/
def HashMap.chainsFrom (m : HashMap V) : Nat → Nat → List (Int × V)
  | _, 0 => []
  | i, n + 1 => m.table i ++ m.chainsFrom (i + 1) n

/-- All entries: the chains of all buckets in increasing bucket index. -/
def HashMap.contents (m : HashMap V) : List (Int × V) := m.chainsFrom 0 TABLE_SIZE

/-- The sum of the lengths of all bucket chains. -/
def HashMap.chainTotal (m : HashMap V) : Nat :=
  ∑ i in Finset.range TABLE_SIZE, (m.table i).length

/-- Some entry of the map has key `key`. -/
def HashMap.HasKey (m : HashMap V) (key : Int) : Prop :=
  ∃ i, i < TABLE_SIZE ∧ ∃ e ∈ m.table i, e.1 = key

/-- The well-formedness of the bucket table: the end index is inside the table, every entry sits
in the bucket of its hash, no chain holds a key twice, and `size` counts the entries. -/
structure HashMap.WF (m : HashMap V) : Prop where
  endIndex_lt : m.endIndex < TABLE_SIZE
  hash_eq : ∀ i, ∀ e ∈ m.table i, getHash e.1 = i ∧ i < TABLE_SIZE
  nodup : ∀ i, ((m.table i).map Prod.fst).Nodup
  size_eq : m.size = m.chainTotal

/-- The active range is tight: in a non-empty map the buckets at `beginIndex` and `endIndex`
are occupied and every occupied bucket lies between them; in an empty map `beginIndex` is the
table length and `endIndex` is zero. -/
structure HashMap.Tight (m : HashMap V) : Prop where
  begin_occupied : m.size ≠ 0 → m.table m.beginIndex ≠ []
  end_occupied : m.size ≠ 0 → m.table m.endIndex ≠ []
  between : ∀ i, m.table i ≠ [] → m.beginIndex ≤ i ∧ i ≤ m.endIndex
  empty_begin : m.size = 0 → m.beginIndex = TABLE_SIZE
  empty_end : m.size = 0 → m.endIndex = 0

/-- A cursor positioned at a real entry inside the active range. -/
def HashMap.Valid (m : HashMap V) (c : Cursor) : Prop :=
  c.index ≤ m.endIndex ∧ c.pos < (m.table c.index).length

/-- The entries from a cursor on: the rest of its chain, then the chains of the buckets after
it up to `endIndex`. -/
def HashMap.restFrom (m : HashMap V) (c : Cursor) : List (Int × V) :=
  (m.table c.index).drop c.pos ++ m.chainsFrom (c.index + 1) (m.endIndex - c.index)

/-- The cursor `c` has exactly the entries `rest` ahead of it: it is the end cursor and `rest` is
empty, or it is at a real entry and `rest` is what lies from there on. -/
def HashMap.Pending (m : HashMap V) (c : Cursor) (rest : List (Int × V)) : Prop :=
  (rest = [] ∧ m.cend = .ok c) ∨ (m.Valid c ∧ m.restFrom c = rest)

/-- The spec's scenario, first call: the map after `map[5] = "a"` on an empty map. -/
def scenario1 : HashMap String :=
  { beginIndex := 5, endIndex := 5, size := 1
    table := Function.update (fun _ => []) 5 [(5, "a")] }

/-- The spec's scenario, second call: after `map[1000005] = "b"`, which collides with key 5. -/
def scenario2 : HashMap String :=
  { beginIndex := 5, endIndex := 5, size := 2
    table := Function.update scenario1.table 5 [(5, "a"), (1000005, "b")] }

/-- The spec's scenario, third call: after `map[3] = "c"`. -/
def scenario3 : HashMap String :=
  { beginIndex := 3, endIndex := 5, size := 3
    table := Function.update scenario2.table 3 [(3, "c")] }

/-- The map after `map[1] = "a"` on an empty map. -/
def pair1 : HashMap String :=
  { beginIndex := 1, endIndex := 1, size := 1
    table := Function.update (fun _ => []) 1 [(1, "a")] }

/-- The map after `map[1] = "a"; map[2] = "b"` on an empty map. -/
def pair2 : HashMap String :=
  { beginIndex := 1, endIndex := 2, size := 2
    table := Function.update pair1.table 2 [(2, "b")] }

/-- The map after `map[1] = "a"; map[2] = "b"; remove(1)` on an empty map: `remove` erases the
entry and decrements `size`, and writes neither `beginIndex` nor `endIndex`. -/
def pair2less1 : HashMap String :=
  { beginIndex := 1, endIndex := 2, size := 1
    table := Function.update pair2.table 1 [] }

/-- The map after `map[key] = v` on an empty map, for a key between 0 and `TABLE_SIZE`. -/
def single (key : Nat) (v : V) : HashMap V :=
  { beginIndex := key, endIndex := key, size := 1
    table := Function.update (fun _ => []) key [((key : Int), v)] }

/-- The map after the calls `map[1]; map[2]; remove(1)` on an empty map of strings: both
subscripts stored the default value, the empty string. -/
def ranMap : HashMap String :=
  { beginIndex := 1, endIndex := 2, size := 1
    table := Function.update (Function.update
      (Function.update (fun _ => []) 1 [(1, "")]) 2 [(2, "")]) 1 [] }

/-- The loop `for (auto item : other) { (*this)[item.first] = item.second; }` of the copy
assignment, from a cursor of `other` and the target as it is so far.  The first argument bounds
the number of iterations. -/
def HashMap.copyLoop [Inhabited V] (other : HashMap V) :
    Nat → Cursor → HashMap V → Option (Except Fault (HashMap V))
  | 0, it, m =>
    match other.cend with
    | .error f => some (.error f)
    | .ok e => if it = e then some (.ok m) else none
  | fuel + 1, it, m =>
    match other.cend with
    | .error f => some (.error f)
    | .ok e =>
      if it = e then some (.ok m)
      else
        match other.deref it with
        | .error f => some (.error f)
        | .ok item =>
          match m.assign item.1 item.2 with
          | .error f => some (.error f)
          | .ok m' =>
            match other.advance it with
            | .error f => some (.error f)
            | .ok it' => other.copyLoop fuel it' m'

/-- The copy assignment `operator=(const HashMap &other)`: the target afterwards.  The table of
the target is not cleared; `size` is set to zero before the loop. -/
def HashMap.copyAssign [Inhabited V] [DecidableEq V] (m other : HashMap V) (fuel : Nat) :
    Option (Except Fault (HashMap V)) :=
  match m.equals other fuel with
  | none => none
  | some (.error f) => some (.error f)
  | some (.ok true) => some (.ok m)
  | some (.ok false) =>
    match other.cbegin with
    | .error f => some (.error f)
    | .ok it =>
      other.copyLoop fuel it
        { m with beginIndex := other.beginIndex, endIndex := other.endIndex, size := 0 }

/-- The copy constructor `HashMap(const HashMap &other)`: a fresh empty map, then `*this = other`. -/
def HashMap.copyOf [Inhabited V] [DecidableEq V] (other : HashMap V) (fuel : Nat) :
    Option (Except Fault (HashMap V)) :=
  (HashMap.empty : HashMap V).copyAssign other fuel

/-- The move assignment `operator=(HashMap &&other)`: the target afterwards.  The moved-from
`other` is left in an unspecified state and is not part of the result. -/
def HashMap.moveAssign [DecidableEq V] (m other : HashMap V) (fuel : Nat) :
    Option (Except Fault (HashMap V)) :=
  match m.equals other fuel with
  | none => none
  | some (.error f) => some (.error f)
  | some (.ok true) => some (.ok m)
  | some (.ok false) =>
    some (.ok { beginIndex := other.beginIndex, endIndex := other.endIndex
                size := other.size, table := other.table })

/-- Maps reachable from the empty map by index-or-insert, `remove(key)` and `remove(find(key))`
calls.  A call returns only when the hash of its key is inside the table. -/
inductive ReachableFind [Inhabited V] : HashMap V → Prop where
  | empty : ReachableFind HashMap.empty
  | index {m m' : HashMap V} {c : Cursor} (key : Int) :
      ReachableFind m → m.index key = .ok (m', c) → ReachableFind m'
  | assign {m m' : HashMap V} (key : Int) (v : V) :
      ReachableFind m → m.assign key v = .ok m' → ReachableFind m'
  | remove {m m' : HashMap V} (key : Int) :
      ReachableFind m → m.remove key = .ok m' → ReachableFind m'
  | removeFound {m m' : HashMap V} {c : Cursor} (key : Int) :
      ReachableFind m → m.find key = .ok c → m.removeAt c = .ok m' → ReachableFind m'

/-- The map after `map[1] = "a"; remove(1)` on an empty map: no entry is left, `beginIndex` and
`endIndex` are still 1. -/
def pair1less1 : HashMap String :=
  { beginIndex := 1, endIndex := 1, size := 0
    table := Function.update pair1.table 1 [] }

/-- The map after `map[1] = "a"; map[2] = "b"; remove(2)` on an empty map. -/
def pair2less2 : HashMap String :=
  { beginIndex := 1, endIndex := 2, size := 1
    table := Function.update pair2.table 2 [] }

/-- The map after `map[0] = "a"; map[1] = "b"` on an empty map. -/
def low2 : HashMap String :=
  { beginIndex := 0, endIndex := 1, size := 2
    table := Function.update (single 0 "a").table 1 [(1, "b")] }

/-- The map after `map[0] = "a"; map[1] = "b"; remove(0)` on an empty map. -/
def low2less0 : HashMap String :=
  { beginIndex := 0, endIndex := 1, size := 1
    table := Function.update low2.table 0 [] }

theorem TABLE_SIZE_pos : 0 < TABLE_SIZE := by decide

theorem tableAt_of_lt (m : HashMap V) {i : Nat} (h : i < TABLE_SIZE) :
    m.tableAt i = .ok (m.table i) := by
  simp [HashMap.tableAt, h]

theorem tableAt_of_not_lt (m : HashMap V) {i : Nat} (h : ¬ i < TABLE_SIZE) :
    m.tableAt i = .error .undefined := by
  simp [HashMap.tableAt, h]

theorem cend_of_lt (m : HashMap V) (h : m.endIndex < TABLE_SIZE) :
    m.cend = .ok ⟨m.endIndex, (m.table m.endIndex).length⟩ := by
  simp [HashMap.cend, tableAt_of_lt m h, bind, Except.bind, pure, Except.pure]

theorem findPos_eq_none_iff (key : Int) (l : List (Int × V)) :
    findPos key l = none ↔ ∀ e ∈ l, e.1 ≠ key := by
  induction l with
  | nil => simp [findPos]
  | cons e rest ih =>
    by_cases h : e.1 = key
    · simp [findPos, h]
    · simp [findPos, h, ih]

theorem findPos_eq_some (key : Int) (l : List (Int × V)) (p : Nat)
    (h : findPos key l = some p) :
    ∃ x, l[p]? = some x ∧ x.1 = key ∧ ∀ q, q < p → ∀ y, l[q]? = some y → y.1 ≠ key := by
  induction l generalizing p with
  | nil => simp [findPos] at h
  | cons e rest ih =>
    by_cases he : e.1 = key
    · simp [findPos, he] at h
      subst h
      exact ⟨e, by simp, he, by intro q hq; omega⟩
    · simp [findPos, he] at h
      obtain ⟨p', hp', rfl⟩ := h
      obtain ⟨x, hx, hxk, hmin⟩ := ih p' hp'
      refine ⟨x, by simpa using hx, hxk, ?_⟩
      intro q hq y hy
      cases q with
      | zero => simp at hy; subst hy; exact he
      | succ q => exact hmin q (by omega) y (by simpa using hy)

theorem findPos_lt_length (key : Int) (l : List (Int × V)) (p : Nat)
    (h : findPos key l = some p) : p < l.length := by
  obtain ⟨x, hx, _⟩ := findPos_eq_some key l p h
  exact (List.getElem?_eq_some_iff.mp hx).1

theorem find_of_lt (m : HashMap V) (key : Int) (h : getHash key < TABLE_SIZE) :
    m.find key = match findPos key (m.table (getHash key)) with
      | some p => .ok ⟨getHash key, p⟩
      | none => m.cend := by
  simp only [HashMap.find, tableAt_of_lt m h, bind, Except.bind, pure, Except.pure]

theorem found_ne_end (m : HashMap V) (i p : Nat) (hp : p < (m.table i).length) :
    (⟨i, p⟩ : Cursor) ≠ ⟨m.endIndex, (m.table m.endIndex).length⟩ := by
  intro h
  injection h with h1 h2
  subst h1
  omega

theorem deref_of_valid (m : HashMap V) (hE : m.endIndex < TABLE_SIZE) (i p : Nat)
    (hi : i < TABLE_SIZE) (x : Int × V) (hx : (m.table i)[p]? = some x) :
    m.deref ⟨i, p⟩ = .ok x := by
  have hp : p < (m.table i).length := (List.getElem?_eq_some_iff.mp hx).1
  simp [HashMap.deref, cend_of_lt m hE, tableAt_of_lt m hi, bind, Except.bind, pure, Except.pure,
    found_ne_end m i p hp, hx]

theorem index_present [Inhabited V] (m : HashMap V) (hE : m.endIndex < TABLE_SIZE) (key : Int)
    (hk : getHash key < TABLE_SIZE) (p : Nat) (hp : findPos key (m.table (getHash key)) = some p) :
    m.index key = .ok (m, ⟨getHash key, p⟩) := by
  obtain ⟨x, hx, -, -⟩ := findPos_eq_some key _ p hp
  have hlt := findPos_lt_length key _ p hp
  simp [HashMap.index, find_of_lt m key hk, hp, cend_of_lt m hE, bind, Except.bind, pure,
    Except.pure, found_ne_end m _ p hlt, deref_of_valid m hE _ p hk x hx]

theorem index_absent [Inhabited V] (m : HashMap V) (hE : m.endIndex < TABLE_SIZE) (key : Int)
    (hk : getHash key < TABLE_SIZE) (hp : findPos key (m.table (getHash key)) = none) :
    m.index key = .ok
      ({ size := m.size + 1
         table := Function.update m.table (getHash key)
           (m.table (getHash key) ++ [(key, default)])
         beginIndex := min m.beginIndex (getHash key)
         endIndex := max m.endIndex (getHash key) },
       ⟨getHash key, (m.table (getHash key)).length⟩) := by
  simp [HashMap.index, find_of_lt m key hk, hp, cend_of_lt m hE, tableAt_of_lt m hk, bind,
    Except.bind, pure, Except.pure]

theorem assign_present [Inhabited V] (m : HashMap V) (hE : m.endIndex < TABLE_SIZE) (key : Int)
    (hk : getHash key < TABLE_SIZE) (p : Nat) (hp : findPos key (m.table (getHash key)) = some p)
    (v : V) :
    m.assign key v = .ok { m with
      table := Function.update m.table (getHash key) ((m.table (getHash key)).set p (key, v)) } := by
  obtain ⟨x, hx, hxk, -⟩ := findPos_eq_some key _ p hp
  simp [HashMap.assign, index_present m hE key hk p hp, HashMap.store, tableAt_of_lt m hk, hx,
    bind, Except.bind, pure, Except.pure, hxk]

theorem assign_absent [Inhabited V] (m : HashMap V) (hE : m.endIndex < TABLE_SIZE) (key : Int)
    (hk : getHash key < TABLE_SIZE) (hp : findPos key (m.table (getHash key)) = none) (v : V) :
    m.assign key v = .ok
      { size := m.size + 1
        table := Function.update m.table (getHash key) (m.table (getHash key) ++ [(key, v)])
        beginIndex := min m.beginIndex (getHash key)
        endIndex := max m.endIndex (getHash key) } := by
  simp [HashMap.assign, index_absent m hE key hk hp, HashMap.store, HashMap.tableAt, hk,
    bind, Except.bind, pure, Except.pure]

theorem valueOf_present (m : HashMap V) (hE : m.endIndex < TABLE_SIZE) (key : Int)
    (hk : getHash key < TABLE_SIZE) (p : Nat) (hp : findPos key (m.table (getHash key)) = some p)
    (x : Int × V) (hx : (m.table (getHash key))[p]? = some x) :
    m.valueOf key = .ok x.2 := by
  have hlt := findPos_lt_length key _ p hp
  simp [HashMap.valueOf, find_of_lt m key hk, hp, cend_of_lt m hE, bind, Except.bind, pure,
    Except.pure, found_ne_end m _ p hlt, deref_of_valid m hE _ p hk x hx]

theorem valueOf_absent (m : HashMap V) (hE : m.endIndex < TABLE_SIZE) (key : Int)
    (hk : getHash key < TABLE_SIZE) (hp : findPos key (m.table (getHash key)) = none) :
    m.valueOf key = .error (.out_of_range "Element does no exist") := by
  simp [HashMap.valueOf, find_of_lt m key hk, hp, cend_of_lt m hE, bind, Except.bind, pure,
    Except.pure, throw, throwThe, MonadExceptOf.throw]

theorem removeAt_of_valid (m : HashMap V) (hE : m.endIndex < TABLE_SIZE) (i p : Nat)
    (hi : i < TABLE_SIZE) (hp : p < (m.table i).length) :
    m.removeAt ⟨i, p⟩ = .ok { m with
      size := decSize m.size
      table := Function.update m.table i ((m.table i).eraseIdx p) } := by
  simp [HashMap.removeAt, cend_of_lt m hE, tableAt_of_lt m hi, bind, Except.bind, pure,
    Except.pure, found_ne_end m i p hp, hp]

theorem remove_present (m : HashMap V) (hE : m.endIndex < TABLE_SIZE) (key : Int)
    (hk : getHash key < TABLE_SIZE) (p : Nat) (hp : findPos key (m.table (getHash key)) = some p) :
    m.remove key = .ok { m with
      size := decSize m.size
      table := Function.update m.table (getHash key) ((m.table (getHash key)).eraseIdx p) } := by
  have hlt := findPos_lt_length key _ p hp
  simp [HashMap.remove, find_of_lt m key hk, hp, cend_of_lt m hE, bind, Except.bind, pure,
    Except.pure, found_ne_end m _ p hlt, removeAt_of_valid m hE _ p hk hlt]

theorem remove_absent (m : HashMap V) (hE : m.endIndex < TABLE_SIZE) (key : Int)
    (hk : getHash key < TABLE_SIZE) (hp : findPos key (m.table (getHash key)) = none) :
    m.remove key = .error (.out_of_range "Tried to remove undefined element") := by
  simp [HashMap.remove, find_of_lt m key hk, hp, cend_of_lt m hE, bind, Except.bind, pure,
    Except.pure, throw, throwThe, MonadExceptOf.throw]

theorem findPos_set (key : Int) (l : List (Int × V)) (p : Nat) (v : V)
    (h : findPos key l = some p) : findPos key (l.set p (key, v)) = some p := by
  induction l generalizing p with
  | nil => simp [findPos] at h
  | cons e rest ih =>
    by_cases he : e.1 = key
    · simp [findPos, he] at h
      subst h
      simp [findPos]
    · simp [findPos, he] at h
      obtain ⟨p', hp', rfl⟩ := h
      simp [findPos, he, ih p' hp']

theorem findPos_append_new (key : Int) (l : List (Int × V)) (v : V)
    (h : findPos key l = none) : findPos key (l ++ [(key, v)]) = some l.length := by
  induction l with
  | nil => simp [findPos]
  | cons e rest ih =>
    by_cases he : e.1 = key
    · simp [findPos, he] at h
    · simp [findPos, he] at h
      simp [findPos, he, ih h]

theorem map_fst_set (key : Int) (l : List (Int × V)) (p : Nat) (v : V) (x : Int × V)
    (hx : l[p]? = some x) (hk : x.1 = key) :
    (l.set p (key, v)).map Prod.fst = l.map Prod.fst := by
  induction l generalizing p with
  | nil => simp
  | cons e rest ih =>
    cases p with
    | zero => simp at hx; subst hx; simp [hk]
    | succ p => simp at hx; simp [ih p hx]

theorem chainTotal_update (t : Nat → List (Int × V)) (i : Nat) (hi : i < TABLE_SIZE)
    (l : List (Int × V)) :
    (∑ j in Finset.range TABLE_SIZE, (Function.update t i l j).length) + (t i).length
      = (∑ j in Finset.range TABLE_SIZE, (t j).length) + l.length := by
  have hmem : i ∈ Finset.range TABLE_SIZE := Finset.mem_range.mpr hi
  rw [← Finset.add_sum_erase _ _ hmem, ← Finset.add_sum_erase _ (fun j => (t j).length) hmem]
  have : ∑ j in (Finset.range TABLE_SIZE).erase i, (Function.update t i l j).length
       = ∑ j in (Finset.range TABLE_SIZE).erase i, (t j).length := by
    apply Finset.sum_congr rfl
    intro j hj
    rw [Function.update_noteq (Finset.ne_of_mem_erase hj)]
  rw [this]
  simp only [Function.update_same]
  omega

theorem chain_le_chainTotal (m : HashMap V) (i : Nat) (hi : i < TABLE_SIZE) :
    (m.table i).length ≤ m.chainTotal := by
  unfold HashMap.chainTotal
  exact Finset.single_le_sum (f := fun j => (m.table j).length) (fun _ _ => Nat.zero_le _)
    (Finset.mem_range.mpr hi)

theorem WF_empty : (HashMap.empty : HashMap V).WF where
  endIndex_lt := TABLE_SIZE_pos
  hash_eq := by intro i e he; simp [HashMap.empty] at he
  nodup := by intro i; simp [HashMap.empty]
  size_eq := by simp [HashMap.empty, HashMap.chainTotal]

theorem WF_set (m : HashMap V) (hm : m.WF) (key : Int) (hk : getHash key < TABLE_SIZE) (p : Nat)
    (hp : findPos key (m.table (getHash key)) = some p) (v : V) :
    HashMap.WF { m with
      table := Function.update m.table (getHash key) ((m.table (getHash key)).set p (key, v)) } := by
  obtain ⟨x, hx, hxk, -⟩ := findPos_eq_some key _ p hp
  refine ⟨hm.endIndex_lt, ?_, ?_, ?_⟩
  · intro i e he
    by_cases hi : i = getHash key
    · subst hi
      simp only [Function.update_same] at he
      rcases List.mem_or_eq_of_mem_set he with h | h
      · exact hm.hash_eq _ e h
      · subst h; exact ⟨rfl, hk⟩
    · simp only [Function.update_noteq hi] at he
      exact hm.hash_eq i e he
  · intro i
    by_cases hi : i = getHash key
    · subst hi
      simp only [Function.update_same]
      rw [map_fst_set key _ p v x hx hxk]
      exact hm.nodup _
    · simp only [Function.update_noteq hi]
      exact hm.nodup i
  · have := chainTotal_update m.table (getHash key) hk ((m.table (getHash key)).set p (key, v))
    have h2 := hm.size_eq
    simp only [HashMap.chainTotal] at *
    simp only [List.length_set] at this
    omega

theorem WF_append (m : HashMap V) (hm : m.WF) (key : Int) (hk : getHash key < TABLE_SIZE)
    (hp : findPos key (m.table (getHash key)) = none) (v : V) :
    HashMap.WF
      { size := m.size + 1
        table := Function.update m.table (getHash key) (m.table (getHash key) ++ [(key, v)])
        beginIndex := min m.beginIndex (getHash key)
        endIndex := max m.endIndex (getHash key) } := by
  refine ⟨?_, ?_, ?_, ?_⟩
  · exact max_lt hm.endIndex_lt hk
  · intro i e he
    by_cases hi : i = getHash key
    · subst hi
      simp only [Function.update_same, List.mem_append, List.mem_singleton] at he
      rcases he with h | h
      · exact hm.hash_eq _ e h
      · subst h; exact ⟨rfl, hk⟩
    · simp only [Function.update_noteq hi] at he
      exact hm.hash_eq i e he
  · intro i
    by_cases hi : i = getHash key
    · subst hi
      simp only [Function.update_same, List.map_append, List.map_cons, List.map_nil]
      rw [List.nodup_append]
      refine ⟨hm.nodup _, List.nodup_singleton _, ?_⟩
      rw [List.disjoint_singleton]  
      intro hmem
      obtain ⟨e, he, hek⟩ := List.mem_map.mp hmem
      exact (findPos_eq_none_iff key _).mp hp e he hek
    · simp only [Function.update_noteq hi]
      exact hm.nodup i
  · have := chainTotal_update m.table (getHash key) hk (m.table (getHash key) ++ [(key, v)])
    have h2 := hm.size_eq
    simp only [HashMap.chainTotal] at *
    simp only [List.length_append, List.length_singleton] at this
    omega

theorem WF_erase (m : HashMap V) (hm : m.WF) (i p : Nat) (hi : i < TABLE_SIZE)
    (hp : p < (m.table i).length) :
    HashMap.WF { m with
      size := decSize m.size
      table := Function.update m.table i ((m.table i).eraseIdx p) } := by
  refine ⟨hm.endIndex_lt, ?_, ?_, ?_⟩
  · intro j e he
    by_cases hj : j = i
    · subst hj
      simp only [Function.update_same] at he
      exact hm.hash_eq _ e (List.mem_of_mem_eraseIdx he)
    · simp only [Function.update_noteq hj] at he
      exact hm.hash_eq j e he
  · intro j
    by_cases hj : j = i
    · subst hj
      simp only [Function.update_same]
      exact (hm.nodup j).sublist ((List.eraseIdx_sublist _ p).map Prod.fst)
    · simp only [Function.update_noteq hj]
      exact hm.nodup j
  · have := chainTotal_update m.table i hi ((m.table i).eraseIdx p)
    have h2 := hm.size_eq
    have h3 := chain_le_chainTotal m i hi
    simp only [HashMap.chainTotal] at *
    simp only [List.length_eraseIdx_of_lt hp] at this
    simp only [decSize]
    split <;> omega

theorem find_of_not_lt (m : HashMap V) (key : Int) (h : ¬ getHash key < TABLE_SIZE) :
    m.find key = .error .undefined := by
  simp [HashMap.find, tableAt_of_not_lt m h, bind, Except.bind]

theorem index_of_not_lt [Inhabited V] (m : HashMap V) (key : Int)
    (h : ¬ getHash key < TABLE_SIZE) : m.index key = .error .undefined := by
  simp [HashMap.index, find_of_not_lt m key h, bind, Except.bind]

theorem assign_of_not_lt [Inhabited V] (m : HashMap V) (key : Int) (v : V)
    (h : ¬ getHash key < TABLE_SIZE) : m.assign key v = .error .undefined := by
  simp [HashMap.assign, index_of_not_lt m key h, bind, Except.bind]

theorem remove_of_not_lt (m : HashMap V) (key : Int)
    (h : ¬ getHash key < TABLE_SIZE) : m.remove key = .error .undefined := by
  simp [HashMap.remove, find_of_not_lt m key h, bind, Except.bind]

theorem valueOf_of_not_lt (m : HashMap V) (key : Int)
    (h : ¬ getHash key < TABLE_SIZE) : m.valueOf key = .error .undefined := by
  simp [HashMap.valueOf, find_of_not_lt m key h, bind, Except.bind]

theorem WF_index [Inhabited V] {m m' : HashMap V} {c : Cursor} (hm : m.WF) (key : Int)
    (h : m.index key = .ok (m', c)) : m'.WF := by
  by_cases hk : getHash key < TABLE_SIZE
  · rcases hp : findPos key (m.table (getHash key)) with _ | p
    · rw [index_absent m hm.endIndex_lt key hk hp] at h
      injection h with h
      injection h with h1 h2
      subst h1
      exact WF_append m hm key hk hp default
    · rw [index_present m hm.endIndex_lt key hk p hp] at h
      injection h with h
      injection h with h1 h2
      subst h1
      exact hm
  · rw [index_of_not_lt m key hk] at h
    cases h

theorem WF_assign [Inhabited V] {m m' : HashMap V} (hm : m.WF) (key : Int) (v : V)
    (h : m.assign key v = .ok m') : m'.WF := by
  by_cases hk : getHash key < TABLE_SIZE
  · rcases hp : findPos key (m.table (getHash key)) with _ | p
    · rw [assign_absent m hm.endIndex_lt key hk hp] at h
      injection h with h
      subst h
      exact WF_append m hm key hk hp v
    · rw [assign_present m hm.endIndex_lt key hk p hp] at h
      injection h with h
      subst h
      exact WF_set m hm key hk p hp v
  · rw [assign_of_not_lt m key v hk] at h
    cases h

theorem WF_remove {m m' : HashMap V} (hm : m.WF) (key : Int)
    (h : m.remove key = .ok m') : m'.WF := by
  by_cases hk : getHash key < TABLE_SIZE
  · rcases hp : findPos key (m.table (getHash key)) with _ | p
    · rw [remove_absent m hm.endIndex_lt key hk hp] at h
      cases h
    · rw [remove_present m hm.endIndex_lt key hk p hp] at h
      injection h with h
      subst h
      exact WF_erase m hm _ p hk (findPos_lt_length key _ p hp)
  · rw [remove_of_not_lt m key hk] at h
    cases h

theorem Reachable.wf [Inhabited V] {m : HashMap V} (h : Reachable m) : m.WF := by
  induction h with
  | empty => exact WF_empty
  | index key _ hstep ih => exact WF_index ih key hstep
  | assign key v _ hstep ih => exact WF_assign ih key v hstep
  | remove key _ hstep ih => exact WF_remove ih key hstep

theorem Built.reachable [Inhabited V] {m : HashMap V} (h : Built m) : Reachable m := by
  induction h with
  | empty => exact Reachable.empty
  | index key _ hstep ih => exact Reachable.index key ih hstep
  | assign key v _ hstep ih => exact Reachable.assign key v ih hstep

theorem hasKey_iff_findPos (m : HashMap V) (hm : m.WF) (key : Int) :
    m.HasKey key ↔ findPos key (m.table (getHash key)) ≠ none := by
  rw [Ne, findPos_eq_none_iff]
  constructor
  · rintro ⟨i, -, e, he, hek⟩ hall
    have := (hm.hash_eq i e he).1
    rw [hek] at this
    subst this
    exact hall e he hek
  · intro h
    push_neg at h
    obtain ⟨e, he, hek⟩ := h
    exact ⟨getHash key, (hm.hash_eq _ e he).2, e, he, hek⟩

/-- C1: in a map reachable by index-or-insert and `remove(key)` calls, for a key whose hash is
inside the table, `map[key] = v` returns, `valueOf(key)` then returns exactly `v`, the size grows
by one when the key was absent and is unchanged when it was present; a second assignment
`map[key] = v2` leaves the size as after the first and makes `valueOf(key)` return `v2`. -/
theorem assign_then_valueOf [Inhabited V] (m : HashMap V) (hm : Reachable m) (key : Int)
    (hk : getHash key < TABLE_SIZE) (v : V) :
    ∃ m', m.assign key v = .ok m' ∧ m'.valueOf key = .ok v ∧
      (¬ m.HasKey key → m'.size = m.size + 1) ∧ (m.HasKey key → m'.size = m.size) ∧
      ∀ v2, ∃ m'', m'.assign key v2 = .ok m'' ∧ m''.size = m'.size ∧
        m''.valueOf key = .ok v2 := by
  have key_step : ∀ (m : HashMap V), m.WF → ∀ v : V,
      ∃ m', m.assign key v = .ok m' ∧ m'.WF ∧ m'.valueOf key = .ok v ∧
        (¬ m.HasKey key → m'.size = m.size + 1) ∧ (m.HasKey key → m'.size = m.size) ∧
        m'.HasKey key := by
    intro m wf v
    rcases hp : findPos key (m.table (getHash key)) with _ | p
    · have hno : ¬ m.HasKey key := by rw [hasKey_iff_findPos m wf key]; simp [hp]
      have wf' := WF_append m wf key hk hp v
      refine ⟨_, assign_absent m wf.endIndex_lt key hk hp v, wf', ?_, fun _ => rfl,
        fun h => absurd h hno, ?_⟩
      · have hfp := findPos_append_new key _ v hp
        refine valueOf_present _ wf'.endIndex_lt key hk (m.table (getHash key)).length
          (by simpa using hfp) (key, v) (by simp)
      · exact ⟨getHash key, hk, (key, v), by simp, rfl⟩
    · have hyes : m.HasKey key := by rw [hasKey_iff_findPos m wf key]; simp [hp]
      have wf' := WF_set m wf key hk p hp v
      have hlt := findPos_lt_length key _ p hp
      refine ⟨_, assign_present m wf.endIndex_lt key hk p hp v, wf', ?_,
        fun h => absurd hyes h, fun _ => rfl, ?_⟩
      · have hfp := findPos_set key _ p v hp
        refine valueOf_present _ wf'.endIndex_lt key hk p (by simpa using hfp) (key, v) ?_
        simp [List.getElem?_set, hlt]
      · refine ⟨getHash key, hk, (key, v), ?_, rfl⟩
        simp only [Function.update_same]
        exact List.mem_iff_getElem?.mpr ⟨p, by simp [List.getElem?_set, hlt]⟩
  obtain ⟨m', h1, wf', h2, h3, h4, h5⟩ := key_step m hm.wf v
  refine ⟨m', h1, h2, h3, h4, ?_⟩
  intro v2
  obtain ⟨m'', g1, -, g2, -, g4, -⟩ := key_step m' wf' v2
  exact ⟨m'', g1, g4 h5, g2⟩

theorem hasKey_iff_mem (m : HashMap V) (hm : m.WF) (key : Int) :
    m.HasKey key ↔ key ∈ (m.table (getHash key)).map Prod.fst := by
  constructor
  · rintro ⟨i, -, e, he, hek⟩
    have := (hm.hash_eq i e he).1
    rw [hek] at this
    subst this
    exact List.mem_map.mpr ⟨e, he, hek⟩
  · intro h
    obtain ⟨e, he, hek⟩ := List.mem_map.mp h
    exact ⟨getHash key, (hm.hash_eq _ e he).2, e, he, hek⟩

theorem mem_keys_eraseIdx (l : List (Int × V)) (p : Nat) (x : Int × V) (k : Int)
    (hnd : (l.map Prod.fst).Nodup) (hx : l[p]? = some x) :
    k ∈ (l.eraseIdx p).map Prod.fst ↔ k ≠ x.1 ∧ k ∈ l.map Prod.fst := by
  induction l generalizing p with
  | nil => simp at hx
  | cons e rest ih =>
    simp only [List.map_cons, List.nodup_cons] at hnd
    cases p with
    | zero =>
      simp at hx
      subst hx
      simp only [List.eraseIdx_cons_zero, List.map_cons, List.mem_cons]
      constructor
      · intro h
        exact ⟨fun hk => hnd.1 (hk ▸ h), Or.inr h⟩
      · rintro ⟨h1, h2 | h2⟩
        · exact absurd h2 h1
        · exact h2
    | succ p =>
      simp only [List.getElem?_cons_succ] at hx
      have hxe : e.1 ≠ x.1 := by
        intro h
        apply hnd.1
        rw [h]
        exact List.mem_map.mpr ⟨x, List.getElem?_mem hx, rfl⟩
      simp only [List.eraseIdx_cons_succ, List.map_cons, List.mem_cons, ih p hnd.2 hx]
      constructor
      · rintro (h | ⟨h1, h2⟩)
        · exact ⟨h ▸ hxe, Or.inl h⟩
        · exact ⟨h1, Or.inr h2⟩
      · rintro ⟨h1, h2 | h2⟩
        · exact Or.inl h2
        · exact Or.inr ⟨h1, h2⟩

theorem card_live_eq_chainTotal (m : HashMap V) (hm : m.WF) (live : Finset Int)
    (hlive : ∀ k, k ∈ live ↔ m.HasKey k) : live.card = m.chainTotal := by
  have hEq : live = (Finset.range TABLE_SIZE).biUnion
      (fun i => ((m.table i).map Prod.fst).toFinset) := by
    ext k
    rw [hlive k, Finset.mem_biUnion]
    constructor
    · rintro ⟨i, hi, e, he, hek⟩
      exact ⟨i, Finset.mem_range.mpr hi, List.mem_toFinset.mpr (List.mem_map.mpr ⟨e, he, hek⟩)⟩
    · rintro ⟨i, hi, hk⟩
      obtain ⟨e, he, hek⟩ := List.mem_map.mp (List.mem_toFinset.mp hk)
      exact ⟨i, Finset.mem_range.mp hi, e, he, hek⟩
  rw [hEq, Finset.card_biUnion]
  · unfold HashMap.chainTotal
    apply Finset.sum_congr rfl
    intro i _
    rw [List.toFinset_card_of_nodup (hm.nodup i), List.length_map]
  · intro i _ j _ hij
    rw [Finset.disjoint_left]
    intro k hki hkj
    obtain ⟨e, he, hek⟩ := List.mem_map.mp (List.mem_toFinset.mp hki)
    obtain ⟨e', he', hek'⟩ := List.mem_map.mp (List.mem_toFinset.mp hkj)
    have h1 := (hm.hash_eq i e he).1
    have h2 := (hm.hash_eq j e' he').1
    rw [hek] at h1
    rw [hek'] at h2
    exact hij (h1.symm.trans h2)

theorem removeAt_ok {m m' : HashMap V} (hE : m.endIndex < TABLE_SIZE) (c : Cursor)
    (h : m.removeAt c = .ok m') :
    c.index < TABLE_SIZE ∧ c.pos < (m.table c.index).length ∧
      m' = { m with
        size := decSize m.size
        table := Function.update m.table c.index ((m.table c.index).eraseIdx c.pos) } := by
  by_cases hi : c.index < TABLE_SIZE
  · by_cases hp : c.pos < (m.table c.index).length
    · refine ⟨hi, hp, ?_⟩
      have := removeAt_of_valid m hE c.index c.pos hi hp
      rw [show (⟨c.index, c.pos⟩ : Cursor) = c from rfl, h] at this
      injection this
    · exfalso
      simp only [HashMap.removeAt, cend_of_lt m hE, tableAt_of_lt m hi, bind, Except.bind, pure,
        Except.pure, hp] at h
      split at h
      · cases h
      · simp at h
  · exfalso
    simp only [HashMap.removeAt, cend_of_lt m hE, tableAt_of_not_lt m hi, bind, Except.bind, pure,
      Except.pure] at h
    split at h
    · cases h
    · cases h

/-- The relation kept along a run: the table is well-formed and the live keys are the keys
stored. -/
theorem run_invariant [Inhabited V] (ops : List (Op V)) (m : HashMap V) (live : Finset Int)
    (hm : m.WF) (hlive : ∀ k, k ∈ live ↔ m.HasKey k) (m' : HashMap V) (live' : Finset Int)
    (h : m.run live ops = some (m', live')) :
    m'.WF ∧ ∀ k, k ∈ live' ↔ m'.HasKey k := by
  induction ops generalizing m live with
  | nil =>
    simp only [HashMap.run, Option.some.injEq, Prod.mk.injEq] at h
    obtain ⟨rfl, rfl⟩ := h
    exact ⟨hm, hlive⟩
  | cons op rest ih =>
    simp only [HashMap.run] at h
    rcases hc : m.call op with f | m1
    · rw [hc] at h
      cases f with
      | undefined => cases h
      | out_of_range w =>
        simp only at h
        refine ih m _ hm ?_ h
        cases op <;> simpa [HashMap.liveAfter] using hlive
    · rw [hc] at h
      simp only at h
      have hstep : m1.WF ∧ ∀ k, k ∈ m.liveAfter live true op ↔ m1.HasKey k := by
        cases op with
        | index key =>
          simp only [HashMap.call] at hc
          by_cases hk : getHash key < TABLE_SIZE
          · rcases hp : findPos key (m.table (getHash key)) with _ | p
            · rw [index_absent m hm.endIndex_lt key hk hp] at hc
              simp only [Except.map, Except.ok.injEq] at hc
              subst hc
              have wf' := WF_append m hm key hk hp default
              refine ⟨wf', fun k => ?_⟩
              rw [hasKey_iff_mem _ wf']
              simp only [HashMap.liveAfter, if_true, Finset.mem_insert, hlive k,
                hasKey_iff_mem m hm]
              by_cases hkk : getHash k = getHash key
              · rw [hkk]
                simp only [Function.update_same, List.map_append, List.mem_append, List.map_cons,
                  List.map_nil, List.mem_singleton]
                tauto
              · rw [Function.update_noteq hkk]
                constructor
                · rintro (h1 | h1)
                  · exact absurd (by rw [h1]) hkk
                  · exact h1
                · exact Or.inr
            · rw [index_present m hm.endIndex_lt key hk p hp] at hc
              simp only [Except.map, Except.ok.injEq] at hc
              subst hc
              refine ⟨hm, fun k => ?_⟩
              simp only [HashMap.liveAfter, if_true, Finset.mem_insert, hlive k]
              constructor
              · rintro (h1 | h1)
                · rw [h1, hasKey_iff_findPos m hm key, hp]; simp
                · exact h1
              · exact Or.inr
          · rw [index_of_not_lt m key hk] at hc
            cases hc
        | assign key v =>
          simp only [HashMap.call] at hc
          by_cases hk : getHash key < TABLE_SIZE
          · rcases hp : findPos key (m.table (getHash key)) with _ | p
            · rw [assign_absent m hm.endIndex_lt key hk hp] at hc
              simp only [Except.ok.injEq] at hc
              subst hc
              have wf' := WF_append m hm key hk hp v
              refine ⟨wf', fun k => ?_⟩
              rw [hasKey_iff_mem _ wf']
              simp only [HashMap.liveAfter, if_true, Finset.mem_insert, hlive k,
                hasKey_iff_mem m hm]
              by_cases hkk : getHash k = getHash key
              · rw [hkk]
                simp only [Function.update_same, List.map_append, List.mem_append, List.map_cons,
                  List.map_nil, List.mem_singleton]
                tauto
              · rw [Function.update_noteq hkk]
                constructor
                · rintro (h1 | h1)
                  · exact absurd (by rw [h1]) hkk
                  · exact h1
                · exact Or.inr
            · rw [assign_present m hm.endIndex_lt key hk p hp] at hc
              simp only [Except.ok.injEq] at hc
              subst hc
              have wf' := WF_set m hm key hk p hp v
              obtain ⟨x, hx, hxk, -⟩ := findPos_eq_some key _ p hp
              refine ⟨wf', fun k => ?_⟩
              rw [hasKey_iff_mem _ wf']
              simp only [HashMap.liveAfter, if_true, Finset.mem_insert, hlive k,
                hasKey_iff_mem m hm]
              have hkey : key ∈ (m.table (getHash key)).map Prod.fst :=
                List.mem_map.mpr ⟨x, List.getElem?_mem hx, hxk⟩
              by_cases hkk : getHash k = getHash key
              · rw [hkk]
                simp only [Function.update_same, map_fst_set key _ p v x hx hxk]
                constructor
                · rintro (h1 | h1)
                  · rw [h1]; exact hkey
                  · exact h1
                · exact Or.inr
              · rw [Function.update_noteq hkk]
                constructor
                · rintro (h1 | h1)
                  · exact absurd (by rw [h1]) hkk
                  · exact h1
                · exact Or.inr
          · rw [assign_of_not_lt m key v hk] at hc
            cases hc
        | remove key =>
          simp only [HashMap.call] at hc
          by_cases hk : getHash key < TABLE_SIZE
          · rcases hp : findPos key (m.table (getHash key)) with _ | p
            · rw [remove_absent m hm.endIndex_lt key hk hp] at hc
              cases hc
            · rw [remove_present m hm.endIndex_lt key hk p hp] at hc
              simp only [Except.ok.injEq] at hc
              subst hc
              have hlt := findPos_lt_length key _ p hp
              have wf' := WF_erase m hm _ p hk hlt
              obtain ⟨x, hx, hxk, -⟩ := findPos_eq_some key _ p hp
              refine ⟨wf', fun k => ?_⟩
              rw [hasKey_iff_mem _ wf']
              simp only [HashMap.liveAfter, if_true, Finset.mem_erase, hlive k,
                hasKey_iff_mem m hm]
              by_cases hkk : getHash k = getHash key
              · rw [hkk]
                simp only [Function.update_same]
                rw [mem_keys_eraseIdx _ p x k (hm.nodup _) hx, hxk]
              · rw [Function.update_noteq hkk]
                constructor
                · exact fun h1 => h1.2
                · exact fun h1 => ⟨fun h2 => hkk (by rw [h2]), h1⟩
          · rw [remove_of_not_lt m key hk] at hc
            cases hc
        | removeAt it =>
          simp only [HashMap.call] at hc
          obtain ⟨hi, hlt, rfl⟩ := removeAt_ok hm.endIndex_lt it hc
          have wf' := WF_erase m hm _ _ hi hlt
          refine ⟨wf', fun k => ?_⟩
          rw [hasKey_iff_mem _ wf']
          have hx : (m.table it.index)[it.pos]? = some ((m.table it.index)[it.pos]) :=
            List.getElem?_eq_getElem hlt
          simp only [HashMap.liveAfter, if_true, hx, Finset.mem_erase, hlive k,
            hasKey_iff_mem m hm]
          have hhash := (hm.hash_eq it.index _ (List.getElem?_mem hx)).1
          by_cases hkk : getHash k = it.index
          · rw [hkk]
            simp only [Function.update_same]
            rw [mem_keys_eraseIdx _ it.pos _ k (hm.nodup _) hx]
          · rw [Function.update_noteq hkk]
            constructor
            · exact fun h1 => h1.2
            · exact fun h1 => ⟨fun h2 => hkk (by rw [h2, hhash]), h1⟩
      exact ih m1 _ hstep.1 hstep.2 h

/-- C2: after every sequence of index-or-insert, `remove(key)` and `remove(cursor)` calls on an
empty map, calls that throw included, the stored size is the sum of the lengths of all bucket
chains, and that sum is the number of distinct keys inserted and not since removed. -/
theorem run_size_eq [Inhabited V] (ops : List (Op V)) (m : HashMap V) (live : Finset Int)
    (h : (HashMap.empty : HashMap V).run ∅ ops = some (m, live)) :
    m.size = m.chainTotal ∧ m.chainTotal = live.card := by
  have hinv := run_invariant ops HashMap.empty ∅ WF_empty
    (by intro k; simp [HashMap.HasKey, HashMap.empty]) m live h
  exact ⟨hinv.1.size_eq, (card_live_eq_chainTotal m hinv.1 live hinv.2).symm⟩

theorem find_eq_cend_iff (m : HashMap V) (hm : m.WF) (key : Int)
    (hk : getHash key < TABLE_SIZE) : m.find key = m.cend ↔ ¬ m.HasKey key := by
  rw [hasKey_iff_findPos m hm key, find_of_lt m key hk]
  rcases hp : findPos key (m.table (getHash key)) with _ | p
  · simp
  · have hlt := findPos_lt_length key _ p hp
    simp only [cend_of_lt m hm.endIndex_lt, ne_eq, reduceCtorEq, not_false_eq_true, not_true_eq_false,
      iff_false]
    intro h
    injection h with h
    exact found_ne_end m _ p hlt h

theorem findPos_bind_getElem (key : Int) (l : List (Int × V)) :
    (findPos key l).bind (fun p => l[p]?) = l.find? (fun e => decide (e.1 = key)) := by
  induction l with
  | nil => simp [findPos]
  | cons e rest ih =>
    by_cases he : e.1 = key
    · simp [findPos, he]
    · simp only [findPos, he, if_false, List.find?_cons, decide_False]
      rw [← ih]
      cases findPos key rest <;> simp

theorem valueOf_eq_find? (m : HashMap V) (hE : m.endIndex < TABLE_SIZE) (key : Int)
    (hk : getHash key < TABLE_SIZE) :
    m.valueOf key = match (m.table (getHash key)).find? (fun e => decide (e.1 = key)) with
      | some x => .ok x.2
      | none => .error (.out_of_range "Element does no exist") := by
  rw [← findPos_bind_getElem]
  rcases hp : findPos key (m.table (getHash key)) with _ | p
  · simpa using valueOf_absent m hE key hk hp
  · obtain ⟨x, hx, -, -⟩ := findPos_eq_some key _ p hp
    simpa [hx] using valueOf_present m hE key hk p hp x hx

theorem find?_eraseIdx_of_ne (l : List (Int × V)) (p : Nat) (x : Int × V) (k : Int)
    (hx : l[p]? = some x) (hne : x.1 ≠ k) :
    (l.eraseIdx p).find? (fun e => decide (e.1 = k)) = l.find? (fun e => decide (e.1 = k)) := by
  induction l generalizing p with
  | nil => simp
  | cons e rest ih =>
    cases p with
    | zero =>
      simp at hx
      subst hx
      simp [List.find?_cons, hne]
    | succ p =>
      simp only [List.getElem?_cons_succ] at hx
      simp only [List.eraseIdx_cons_succ, List.find?_cons, ih p hx]

/-- C3: in a map reachable by index-or-insert and `remove(key)` calls, removing a key that is
present returns, takes exactly one off the size, erases exactly the first entry of that key from
its chain and leaves every other chain and the order of the remaining entries as they were;
`find(key)` is then the end cursor, and every other key has the value it had and, if it was
present, is still found. -/
theorem remove_present_key [Inhabited V] (m : HashMap V) (hm : Reachable m) (key : Int)
    (hk : m.HasKey key) :
    ∃ m', m.remove key = .ok m' ∧ m'.size + 1 = m.size ∧
      (∃ e, m'.cend = .ok e ∧ m'.find key = .ok e) ∧
      (∃ p x, (m.table (getHash key))[p]? = some x ∧ x.1 = key ∧
        m'.table = Function.update m.table (getHash key)
          ((m.table (getHash key)).eraseIdx p)) ∧
      (∀ i, (m'.table i).Sublist (m.table i)) ∧
      ∀ k', k' ≠ key → m'.valueOf k' = m.valueOf k' ∧
        (m.HasKey k' → m'.HasKey k' ∧ m'.find k' ≠ m'.cend) := by
  have wf := hm.wf
  have hin : getHash key < TABLE_SIZE := by
    obtain ⟨i, hi, e, he, hek⟩ := hk
    have := (wf.hash_eq i e he).1
    rw [hek] at this
    rw [this]
    exact hi
  rcases hp : findPos key (m.table (getHash key)) with _ | p
  · exact absurd hp ((hasKey_iff_findPos m wf key).mp hk)
  · have hlt := findPos_lt_length key _ p hp
    obtain ⟨x, hx, hxk, -⟩ := findPos_eq_some key _ p hp
    have wf' := WF_erase m wf _ p hin hlt
    have hgone : ¬ HashMap.HasKey { m with
        size := decSize m.size
        table := Function.update m.table (getHash key)
          ((m.table (getHash key)).eraseIdx p) } key := by
      rw [hasKey_iff_mem _ wf']
      simp only [Function.update_same]
      rw [mem_keys_eraseIdx _ p x key (wf.nodup _) hx]
      exact fun h => h.1 hxk.symm
    refine ⟨_, remove_present m wf.endIndex_lt key hin p hp, ?_, ?_, ⟨p, x, hx, hxk, rfl⟩, ?_, ?_⟩
    · have h1 := wf.size_eq
      have h2 := chain_le_chainTotal m _ hin
      simp only [decSize]
      split <;> omega
    · refine ⟨_, cend_of_lt _ wf'.endIndex_lt, ?_⟩
      rw [← cend_of_lt _ wf'.endIndex_lt]
      exact (find_eq_cend_iff _ wf' key hin).mpr hgone
    · intro i
      by_cases hi : i = getHash key
      · subst hi
        simp only [Function.update_same]
        exact List.eraseIdx_sublist _ p
      · simp only [Function.update_noteq hi]
        exact List.Sublist.refl _
    · intro k' hne
      have hsame : m.HasKey k' → HashMap.HasKey { m with
          size := decSize m.size
          table := Function.update m.table (getHash key)
            ((m.table (getHash key)).eraseIdx p) } k' := by
        rw [hasKey_iff_mem _ wf', hasKey_iff_mem m wf]
        by_cases hkk : getHash k' = getHash key
        · rw [hkk]
          simp only [Function.update_same]
          rw [mem_keys_eraseIdx _ p x k' (wf.nodup _) hx]
          exact fun h => ⟨by rw [hxk]; exact hne, h⟩
        · simp only [Function.update_noteq hkk]
          exact id
      constructor
      · by_cases hk' : getHash k' < TABLE_SIZE
        · rw [valueOf_eq_find? _ wf'.endIndex_lt k' hk', valueOf_eq_find? m wf.endIndex_lt k' hk']
          by_cases hkk : getHash k' = getHash key
          · rw [hkk]
            simp only [Function.update_same]
            rw [find?_eraseIdx_of_ne _ p x k' hx (by rw [hxk]; exact fun h => hne h.symm)]
          · simp only [Function.update_noteq hkk]
        · rw [valueOf_of_not_lt _ k' hk', valueOf_of_not_lt m k' hk']
      · intro hk'
        have hin' : getHash k' < TABLE_SIZE := by
          obtain ⟨i, hi, e, he, hek⟩ := hk'
          have := (wf.hash_eq i e he).1
          rw [hek] at this
          rw [this]
          exact hi
        refine ⟨hsame hk', ?_⟩
        rw [Ne, find_eq_cend_iff _ wf' k' hin']
        exact fun h => h (hsame hk')

theorem chainsFrom_add (m : HashMap V) (a n k : Nat) :
    m.chainsFrom a (n + k) = m.chainsFrom a n ++ m.chainsFrom (a + n) k := by
  induction n generalizing a with
  | zero => simp [HashMap.chainsFrom]
  | succ n ih =>
    rw [show n + 1 + k = (n + k) + 1 by omega]
    simp only [HashMap.chainsFrom, ih (a + 1), List.append_assoc]
    rw [show a + 1 + n = a + (n + 1) by omega]

theorem chainsFrom_empty (m : HashMap V) (a n : Nat)
    (h : ∀ k, a ≤ k → k < a + n → m.table k = []) : m.chainsFrom a n = [] := by
  induction n generalizing a with
  | zero => simp [HashMap.chainsFrom]
  | succ n ih =>
    simp only [HashMap.chainsFrom, h a (Nat.le_refl a) (by omega), List.nil_append]
    exact ih (a + 1) (fun k h1 h2 => h k (by omega) (by omega))

theorem chainsFrom_length (m : HashMap V) (a n : Nat) :
    (m.chainsFrom a n).length = ∑ i in Finset.range n, (m.table (a + i)).length := by
  induction n generalizing a with
  | zero => simp [HashMap.chainsFrom]
  | succ n ih =>
    simp only [HashMap.chainsFrom, List.length_append, ih (a + 1), Finset.sum_range_succ']
    rw [Nat.add_comm]
    congr 1
    apply Finset.sum_congr rfl
    intro i _
    rw [show a + 1 + i = a + (i + 1) by omega]

theorem contents_length (m : HashMap V) : m.contents.length = m.chainTotal := by
  simp [HashMap.contents, HashMap.chainTotal, chainsFrom_length]

theorem scanUp_unfold (m : HashMap V) (e i : Nat) (hi : i + 1 < TABLE_SIZE) :
    m.scanUp e (TABLE_SIZE - i) i =
      if (m.table (i + 1)).isEmpty then
        if i + 1 > e then m.cend else m.scanUp e (TABLE_SIZE - (i + 1)) (i + 1)
      else .ok ⟨i + 1, 0⟩ := by
  rw [show TABLE_SIZE - i = (TABLE_SIZE - (i + 1)) + 1 by omega]
  simp only [HashMap.scanUp, tableAt_of_lt m hi, bind, Except.bind, pure, Except.pure]

theorem scanUp_outside (m : HashMap V) (e i : Nat) (hi : ¬ i + 1 < TABLE_SIZE) :
    m.scanUp e (TABLE_SIZE - i) i = .error .undefined := by
  by_cases h : TABLE_SIZE - i = 0
  · rw [h]; rfl
  · obtain ⟨r, hr⟩ := Nat.exists_eq_succ_of_ne_zero h
    rw [hr]
    simp only [HashMap.scanUp, tableAt_of_not_lt m hi, bind, Except.bind]

theorem scanUp_skip (m : HashMap V) (e d i : Nat) (hlt : i + d + 1 < TABLE_SIZE)
    (hle : i + d + 1 ≤ e) (hgap : ∀ k, i < k → k < i + d + 1 → m.table k = [])
    (hocc : m.table (i + d + 1) ≠ []) :
    m.scanUp e (TABLE_SIZE - i) i = .ok ⟨i + d + 1, 0⟩ := by
  induction d generalizing i with
  | zero =>
    rw [scanUp_unfold m e i (by omega)]
    simp [List.isEmpty_iff, show m.table (i + 1) ≠ [] from hocc]
  | succ d ih =>
    rw [scanUp_unfold m e i (by omega)]
    have hemp : m.table (i + 1) = [] := hgap (i + 1) (by omega) (by omega)
    have hnot : ¬ i + 1 > e := by omega
    simp only [hemp, List.isEmpty_nil, if_true, hnot, if_false]
    rw [ih (i + 1) (by omega) (by omega) (fun k h1 h2 => hgap k (by omega) (by omega))
      (by rw [show i + 1 + d + 1 = i + (d + 1) + 1 by omega]; exact hocc)]
    rw [show i + 1 + d + 1 = i + (d + 1) + 1 by omega]

theorem scanUp_at_end (m : HashMap V) (e : Nat) (hlt : e + 1 < TABLE_SIZE)
    (hemp : m.table (e + 1) = []) : m.scanUp e (TABLE_SIZE - e) e = m.cend := by
  rw [scanUp_unfold m e e hlt]
  simp [hemp]

theorem chainsFrom_skip (m : HashMap V) (a d n : Nat)
    (h : ∀ k, a ≤ k → k < a + d → m.table k = []) :
    m.chainsFrom a (d + n) = m.chainsFrom (a + d) n := by
  rw [chainsFrom_add, chainsFrom_empty m a d h, List.nil_append]

/-- One step of a traversal: with a well-formed table, a tight active range and an end index
that is not the last bucket, a cursor with `x :: rest` ahead of it is not the end cursor,
dereferences to `x`, and advances to a cursor with `rest` ahead of it. -/
theorem pending_cons (m : HashMap V) (wf : m.WF) (tight : m.Tight)
    (hE : m.endIndex + 1 < TABLE_SIZE) (c : Cursor) (x : Int × V) (rest : List (Int × V))
    (h : m.Pending c (x :: rest)) :
    m.cend ≠ .ok c ∧ m.deref c = .ok x ∧ ∃ c', m.advance c = .ok c' ∧ m.Pending c' rest := by
  rcases h with ⟨h, -⟩ | ⟨⟨hidx, hpos⟩, hrest⟩
  · cases h
  have hi : c.index < TABLE_SIZE := by omega
  have hne : c ≠ ⟨m.endIndex, (m.table m.endIndex).length⟩ := found_ne_end m c.index c.pos hpos
  have hdrop : (m.table c.index).drop c.pos
      = (m.table c.index)[c.pos] :: (m.table c.index).drop (c.pos + 1) :=
    List.drop_eq_getElem_cons hpos
  simp only [HashMap.restFrom, hdrop, List.cons_append, List.cons.injEq] at hrest
  obtain ⟨hx, hrest⟩ := hrest
  refine ⟨?_, ?_, ?_⟩
  · rw [cend_of_lt m wf.endIndex_lt]
    intro h
    injection h with h
    exact hne h.symm
  · have := deref_of_valid m wf.endIndex_lt c.index c.pos hi x
      (by rw [List.getElem?_eq_getElem hpos, hx])
    exact this
  · have hadv : m.advance c = if c.pos + 1 ≠ (m.table c.index).length
        then .ok ⟨c.index, c.pos + 1⟩
        else m.scanUp m.endIndex (TABLE_SIZE - c.index) c.index := by
      simp only [HashMap.advance, cend_of_lt m wf.endIndex_lt, tableAt_of_lt m hi, bind,
        Except.bind, pure, Except.pure, hne, if_false, HashMap.getEndIndex,
        show ¬ (m.table c.index).length ≤ c.pos by omega]
    by_cases hnext : c.pos + 1 ≠ (m.table c.index).length
    · rw [hadv, if_pos hnext]
      refine ⟨_, rfl, Or.inr ⟨⟨hidx, by show c.pos + 1 < (m.table c.index).length; omega⟩, ?_⟩⟩
      simpa [HashMap.restFrom] using hrest
    · rw [hadv, if_neg hnext]
      have hlast : c.pos + 1 = (m.table c.index).length := by omega
      rw [List.drop_of_length_le (by omega), List.nil_append] at hrest
      by_cases hend : c.index = m.endIndex
      · rw [hend]
        have hemp : m.table (m.endIndex + 1) = [] := by
          by_contra hcon
          have := (tight.between _ hcon).2
          omega
        refine ⟨_, (scanUp_at_end m m.endIndex hE hemp).trans (cend_of_lt m wf.endIndex_lt),
          Or.inl ⟨?_, cend_of_lt m wf.endIndex_lt⟩⟩
        rw [← hrest, hend]
        simp [HashMap.chainsFrom]
      · have hlt : c.index < m.endIndex := by omega
        have hsize : m.size ≠ 0 := by
          have h1 := wf.size_eq
          have h2 := chain_le_chainTotal m c.index hi
          omega
        have hex : ∃ d, m.table (c.index + d + 1) ≠ [] :=
          ⟨m.endIndex - c.index - 1, by
            rw [show c.index + (m.endIndex - c.index - 1) + 1 = m.endIndex by omega]
            exact tight.end_occupied hsize⟩
        classical
        let d := Nat.find hex
        have hd : m.table (c.index + d + 1) ≠ [] := Nat.find_spec hex
        have hdle : c.index + d + 1 ≤ m.endIndex := (tight.between _ hd).2
        have hgap : ∀ k, c.index < k → k < c.index + d + 1 → m.table k = [] := by
          intro k h1 h2
          by_contra hcon
          have := Nat.find_min hex (m := k - c.index - 1) (by show k - c.index - 1 < d; omega)
          apply this
          rw [show c.index + (k - c.index - 1) + 1 = k by omega]
          exact hcon
        refine ⟨_, scanUp_skip m m.endIndex d c.index (by omega) hdle hgap hd,
          Or.inr ⟨⟨hdle, List.length_pos.mpr hd⟩, ?_⟩⟩
        rw [← hrest]
        simp only [HashMap.restFrom, List.drop_zero]
        rw [show m.endIndex - c.index = d + ((m.endIndex - (c.index + d + 1)) + 1) by omega,
          chainsFrom_skip m (c.index + 1) d _ (fun k h1 h2 => hgap k (by omega) (by omega))]
        simp only [HashMap.chainsFrom]
        rw [show c.index + 1 + d = c.index + d + 1 by omega]

theorem pending_nil (m : HashMap V) (c : Cursor) (h : m.Pending c []) : m.cend = .ok c := by
  rcases h with ⟨-, h⟩ | ⟨⟨hidx, hpos⟩, hrest⟩
  · exact h
  · exfalso
    unfold HashMap.restFrom at hrest
    rw [List.drop_eq_getElem_cons hpos] at hrest
    cases hrest

theorem Tight_empty : (HashMap.empty : HashMap V).Tight where
  begin_occupied := by intro h; exact absurd rfl h
  end_occupied := by intro h; exact absurd rfl h
  between := by intro i h; exact absurd rfl h
  empty_begin := fun _ => rfl
  empty_end := fun _ => rfl

theorem Tight_set (m : HashMap V) (ht : m.Tight) (i p : Nat) (x : Int × V) :
    HashMap.Tight { m with table := Function.update m.table i ((m.table i).set p x) } := by
  have hiff : ∀ j, Function.update m.table i ((m.table i).set p x) j ≠ [] ↔ m.table j ≠ [] := by
    intro j
    by_cases hj : j = i
    · subst hj
      simp only [Function.update_same]
      rw [← List.length_pos, ← List.length_pos, List.length_set]
    · simp only [Function.update_noteq hj]
  exact ⟨fun h => (hiff _).mpr (ht.begin_occupied h), fun h => (hiff _).mpr (ht.end_occupied h),
    fun j h => ht.between j ((hiff j).mp h), ht.empty_begin, ht.empty_end⟩

theorem Tight_append (m : HashMap V) (ht : m.Tight) (key : Int) (hk : getHash key < TABLE_SIZE)
    (v : V) :
    HashMap.Tight
      { size := m.size + 1
        table := Function.update m.table (getHash key) (m.table (getHash key) ++ [(key, v)])
        beginIndex := min m.beginIndex (getHash key)
        endIndex := max m.endIndex (getHash key) } := by
  refine ⟨fun _ => ?_, fun _ => ?_, ?_, fun h => ?_, fun h => ?_⟩
  · show Function.update m.table (getHash key) _ (min m.beginIndex (getHash key)) ≠ []
    by_cases hmin : min m.beginIndex (getHash key) = getHash key
    · rw [hmin, Function.update_same]; simp
    · have hlt : m.beginIndex < getHash key := by omega
      have hsz : m.size ≠ 0 := fun h0 => by have := ht.empty_begin h0; omega
      rw [show min m.beginIndex (getHash key) = m.beginIndex by omega,
        Function.update_noteq (by omega)]
      exact ht.begin_occupied hsz
  · show Function.update m.table (getHash key) _ (max m.endIndex (getHash key)) ≠ []
    by_cases hmax : max m.endIndex (getHash key) = getHash key
    · rw [hmax, Function.update_same]; simp
    · have hlt : getHash key < m.endIndex := by omega
      have hsz : m.size ≠ 0 := fun h0 => by have := ht.empty_end h0; omega
      rw [show max m.endIndex (getHash key) = m.endIndex by omega,
        Function.update_noteq (by omega)]
      exact ht.end_occupied hsz
  · intro i hi
    show min m.beginIndex (getHash key) ≤ i ∧ i ≤ max m.endIndex (getHash key)
    by_cases hih : i = getHash key
    · subst hih; omega
    · simp only [Function.update_noteq hih] at hi
      have := ht.between i hi
      omega
  · simp at h
  · simp at h

theorem Built.tight [Inhabited V] {m : HashMap V} (h : Built m) : m.Tight := by
  induction h with
  | empty => exact Tight_empty
  | @index m m' c key hb hstep ih =>
    have wf := hb.reachable.wf
    by_cases hk : getHash key < TABLE_SIZE
    · rcases hp : findPos key (m.table (getHash key)) with _ | p
      · rw [index_absent m wf.endIndex_lt key hk hp] at hstep
        injection hstep with hstep
        injection hstep with h1 h2
        subst h1
        exact Tight_append m ih key hk default
      · rw [index_present m wf.endIndex_lt key hk p hp] at hstep
        injection hstep with hstep
        injection hstep with h1 h2
        subst h1
        exact ih
    · rw [index_of_not_lt m key hk] at hstep
      cases hstep
  | @assign m m' key v hb hstep ih =>
    have wf := hb.reachable.wf
    by_cases hk : getHash key < TABLE_SIZE
    · rcases hp : findPos key (m.table (getHash key)) with _ | p
      · rw [assign_absent m wf.endIndex_lt key hk hp] at hstep
        injection hstep with hstep
        subst hstep
        exact Tight_append m ih key hk v
      · rw [assign_present m wf.endIndex_lt key hk p hp] at hstep
        injection hstep with hstep
        subst hstep
        exact Tight_set m ih _ p _
    · rw [assign_of_not_lt m key v hk] at hstep
      cases hstep

theorem table_empty_of_size_zero (m : HashMap V) (wf : m.WF) (h : m.size = 0) (i : Nat) :
    m.table i = [] := by
  by_contra hne
  obtain ⟨e, he⟩ := List.exists_mem_of_ne_nil _ hne
  have hi := (wf.hash_eq i e he).2
  have h1 := chain_le_chainTotal m i hi
  have h2 := wf.size_eq
  have h3 := List.length_pos.mpr hne
  omega

theorem pending_begin (m : HashMap V) (wf : m.WF) (tight : m.Tight) :
    ∃ b, m.cbegin = .ok b ∧ m.Pending b m.contents := by
  by_cases hsz : m.size = 0
  · refine ⟨_, ?_, Or.inl ⟨?_, cend_of_lt m wf.endIndex_lt⟩⟩
    · simp [HashMap.cbegin, HashMap.isEmpty, HashMap.getSize, hsz, cend_of_lt m wf.endIndex_lt]
    · exact chainsFrom_empty m 0 TABLE_SIZE
        (fun k _ _ => table_empty_of_size_zero m wf hsz k)
  · have hocc := tight.begin_occupied hsz
    have hbe := (tight.between _ hocc).2
    have hE := wf.endIndex_lt
    have hb : m.beginIndex < TABLE_SIZE := by omega
    refine ⟨⟨m.beginIndex, 0⟩, ?_, Or.inr ⟨⟨hbe, List.length_pos.mpr hocc⟩, ?_⟩⟩
    · simp [HashMap.cbegin, HashMap.isEmpty, HashMap.getSize, hsz, tableAt_of_lt m hb, bind,
        Except.bind, pure, Except.pure]
    · simp only [HashMap.restFrom, List.drop_zero, HashMap.contents]
      have hsplit : TABLE_SIZE = m.beginIndex
          + (((m.endIndex - m.beginIndex) + 1) + (TABLE_SIZE - (m.endIndex + 1))) := by omega
      conv_rhs => rw [hsplit]
      rw [chainsFrom_skip m 0 m.beginIndex _ (fun k _ h2 => by
        by_contra hne
        have := (tight.between k hne).1
        omega)]
      rw [chainsFrom_add, chainsFrom_empty m _ (TABLE_SIZE - (m.endIndex + 1)) (fun k h1 _ => by
        by_contra hne
        have := (tight.between k hne).2
        omega)]
      rw [List.append_nil, Nat.zero_add, Nat.add_comm (m.endIndex - m.beginIndex) 1,
        chainsFrom_add]
      simp [HashMap.chainsFrom, Nat.add_comm]

theorem traverseFrom_pending (m : HashMap V) (wf : m.WF) (tight : m.Tight)
    (hE : m.endIndex + 1 < TABLE_SIZE) (rest : List (Int × V)) (fuel : Nat) (c : Cursor)
    (h : m.Pending c rest) (hf : rest.length ≤ fuel) :
    m.traverseFrom fuel c = some (.ok rest) := by
  induction rest generalizing fuel c with
  | nil =>
    have hc := pending_nil m c h
    cases fuel <;> simp [HashMap.traverseFrom, hc]
  | cons x rest ih =>
    obtain ⟨hne, hd, c', ha, hp⟩ := pending_cons m wf tight hE c x rest h
    cases fuel with
    | zero => simp at hf
    | succ fuel =>
      have hne' : c ≠ ⟨m.endIndex, (m.table m.endIndex).length⟩ := by
        intro hc
        apply hne
        rw [cend_of_lt m wf.endIndex_lt, hc]
      simp only [HashMap.traverseFrom, cend_of_lt m wf.endIndex_lt, hne', if_false, hd, ha,
        ih fuel c' hp (by simpa using hf)]

theorem traverse_eq_contents [Inhabited V] (m : HashMap V) (hm : Built m)
    (hE : m.endIndex + 1 < TABLE_SIZE) (fuel : Nat) (hf : m.size ≤ fuel) :
    m.traverse fuel = some (.ok m.contents) := by
  have wf := hm.reachable.wf
  obtain ⟨b, hb, hp⟩ := pending_begin m wf hm.tight
  simp only [HashMap.traverse, hb]
  exact traverseFrom_pending m wf hm.tight hE _ fuel b hp
    (by rw [contents_length, ← wf.size_eq]; exact hf)

theorem endIndex_succ_lt [Inhabited V] (m : HashMap V) (hm : Built m)
    (hlast : ∀ i, m.table i ≠ [] → i < TABLE_SIZE - 1) : m.endIndex + 1 < TABLE_SIZE := by
  by_cases hsz : m.size = 0
  · rw [hm.tight.empty_end hsz]; decide
  · have := hlast _ (hm.tight.end_occupied hsz)
    omega

theorem eqLoop_pending [DecidableEq V] (a b : HashMap V) (wfa : a.WF) (ta : a.Tight)
    (hEa : a.endIndex + 1 < TABLE_SIZE) (wfb : b.WF) (tb : b.Tight)
    (hEb : b.endIndex + 1 < TABLE_SIZE) (ra rb : List (Int × V)) (fuel : Nat)
    (ca cb : Cursor) (ha : a.Pending ca ra) (hb : b.Pending cb rb)
    (hlen : ra.length = rb.length) (hf : ra.length ≤ fuel) :
    a.eqLoop b fuel ca cb = some (.ok (decide (ra.map Prod.snd = rb.map Prod.snd))) := by
  induction ra generalizing rb fuel ca cb with
  | nil =>
    have hc := pending_nil a ca ha
    have hrb : rb = [] := List.length_eq_zero.mp hlen.symm
    subst hrb
    cases fuel <;> simp [HashMap.eqLoop, hc]
  | cons x ra ih =>
    cases rb with
    | nil => simp at hlen
    | cons y rb =>
      obtain ⟨hne, hd, ca', haa, hpa⟩ := pending_cons a wfa ta hEa ca x ra ha
      obtain ⟨-, hd', cb', hab, hpb⟩ := pending_cons b wfb tb hEb cb y rb hb
      cases fuel with
      | zero => simp at hf
      | succ fuel =>
        have hne' : ca ≠ ⟨a.endIndex, (a.table a.endIndex).length⟩ := by
          intro hc
          apply hne
          rw [cend_of_lt a wfa.endIndex_lt, hc]
        simp only [HashMap.eqLoop, cend_of_lt a wfa.endIndex_lt, hne', if_false, hd, hd', hab, haa]
        by_cases hxy : x.2 = y.2
        · simp only [hxy, ne_eq, not_true_eq_false, if_false]
          rw [ih rb fuel ca' cb' hpa hpb (by simpa using hlen) (by simpa using hf)]
          simp [hxy]
        · simp [hxy]

theorem equals_eq_decide [Inhabited V] [DecidableEq V] (a b : HashMap V) (ha : Built a)
    (hb : Built b) (hEa : a.endIndex + 1 < TABLE_SIZE) (hEb : b.endIndex + 1 < TABLE_SIZE)
    (fuel : Nat) (hf : a.size ≤ fuel) :
    a.equals b fuel = some (.ok (decide
      (a.size = b.size ∧ a.contents.map Prod.snd = b.contents.map Prod.snd))) := by
  have wfa := ha.reachable.wf
  have wfb := hb.reachable.wf
  by_cases hsz : a.size = b.size
  · obtain ⟨ca, hca, hpa⟩ := pending_begin a wfa ha.tight
    obtain ⟨cb, hcb, hpb⟩ := pending_begin b wfb hb.tight
    have hla : a.contents.length = a.size := by rw [contents_length, ← wfa.size_eq]
    have hlb : b.contents.length = b.size := by rw [contents_length, ← wfb.size_eq]
    simp only [HashMap.equals, HashMap.getSize, hsz, ne_eq, not_true_eq_false, if_false, hca, hcb]
    rw [eqLoop_pending a b wfa ha.tight hEa wfb hb.tight hEb _ _ fuel ca cb hpa hpb
      (by rw [hla, hlb, hsz]) (by rw [hla]; exact hf)]
    simp
  · simp [HashMap.equals, HashMap.getSize, hsz]

theorem scenario1_step : (HashMap.empty : HashMap String).assign 5 "a" = .ok scenario1 :=
  (assign_absent HashMap.empty (by decide) 5 (by decide) rfl "a").trans rfl

theorem scenario2_step : scenario1.assign 1000005 "b" = .ok scenario2 :=
  (assign_absent scenario1 (by decide) 1000005 (by decide) rfl "b").trans rfl

theorem scenario3_step : scenario2.assign 3 "c" = .ok scenario3 :=
  (assign_absent scenario2 (by decide) 3 (by decide) rfl "c").trans rfl

theorem scenario3_built : Built scenario3 :=
  .assign 3 "c" (.assign 1000005 "b" (.assign 5 "a" .empty scenario1_step) scenario2_step)
    scenario3_step

theorem pair1_step : (HashMap.empty : HashMap String).assign 1 "a" = .ok pair1 :=
  (assign_absent HashMap.empty (by decide) 1 (by decide) rfl "a").trans rfl

theorem pair2_step : pair1.assign 2 "b" = .ok pair2 :=
  (assign_absent pair1 (by decide) 2 (by decide) rfl "b").trans rfl

theorem pair2_built : Built pair2 :=
  .assign 2 "b" (.assign 1 "a" .empty pair1_step) pair2_step

theorem pair2less1_step : pair2.remove 1 = .ok pair2less1 := rfl

theorem pair2less1_reachable : Reachable pair2less1 :=
  .remove 1 pair2_built.reachable pair2less1_step

theorem single_step [Inhabited V] (key : Nat) (hk : key < TABLE_SIZE) (v : V) :
    (HashMap.empty : HashMap V).assign key v = .ok (single key v) := by
  have hh : getHash (key : Int) = key := by
    unfold getHash
    rw [Int.tmod_eq_emod (Int.natCast_nonneg key) (Int.natCast_nonneg _)]
    have h1 : (key : Int) % (TABLE_SIZE : Int) = key := by
      exact_mod_cast congrArg (Nat.cast (R := Int)) (Nat.mod_eq_of_lt hk)
    rw [h1]
    have h2 : (key : Int) % (2 ^ 64 : Int) = key := by
      have : key < 2 ^ 64 := lt_trans hk (by decide)
      exact_mod_cast congrArg (Nat.cast (R := Int)) (Nat.mod_eq_of_lt this)
    rw [h2]
    simp
  have := assign_absent (HashMap.empty : HashMap V) TABLE_SIZE_pos (key : Int) (by rw [hh]; exact hk)
    (by simp [HashMap.empty, findPos]) v
  rw [this, hh]
  simp [single, HashMap.empty, Nat.min_eq_right (Nat.le_of_lt hk)]

theorem single_built [Inhabited V] (key : Nat) (hk : key < TABLE_SIZE) (v : V) :
    Built (single key v) :=
  .assign key v .empty (single_step key hk v)

theorem scenario3_last (i : Nat) (h : scenario3.table i ≠ []) : i < TABLE_SIZE - 1 := by
  by_contra hc
  apply h
  have hi : 999999 ≤ i := by
    have : TABLE_SIZE - 1 = 999999 := by decide
    omega
  have h3 : i ≠ 3 := by omega
  have h5 : i ≠ 5 := by omega
  simp [scenario3, scenario2, scenario1, Function.update, h3, h5]

theorem single_last (key : Nat) (hk : key + 1 < TABLE_SIZE) (v : V) (i : Nat)
    (h : (single key v).table i ≠ []) : i < TABLE_SIZE - 1 := by
  by_cases hi : i = key
  · omega
  · exact absurd (by simp [single, Function.update, hi]) h

/-- C1, witness: on the map left by `map[1] = "a"; map[2] = "b"; remove(1)`, the assignment
`map[1] = "z"` returns, `valueOf(1)` is then `"z"`, and the size grew by one. -/
theorem assign_then_valueOf_witness :
    Reachable pair2less1 ∧ getHash 1 < TABLE_SIZE ∧
    ∃ m', pair2less1.assign 1 "z" = .ok m' ∧ m'.valueOf 1 = .ok "z" ∧
      (¬ pair2less1.HasKey 1 → m'.size = pair2less1.size + 1) ∧
      (pair2less1.HasKey 1 → m'.size = pair2less1.size) ∧
      ∀ v2, ∃ m'', m'.assign 1 v2 = .ok m'' ∧ m''.size = m'.size ∧
        m''.valueOf 1 = .ok v2 :=
  ⟨pair2less1_reachable, by decide,
    assign_then_valueOf pair2less1 pair2less1_reachable 1 (by decide) "z"⟩

/-- C2, witness: the calls `map[1]; map[2]; remove(7)` (throws); `remove(1)` on an empty map leave
size 1, one chain entry and the one live key 2. -/
theorem run_size_eq_witness :
    (HashMap.empty : HashMap String).run ∅ [.index 1, .index 2, .remove 7, .remove 1]
        = some (ranMap, {2}) ∧
      ranMap.size = ranMap.chainTotal ∧ ranMap.chainTotal = ({2} : Finset Int).card :=
  ⟨rfl, run_size_eq [.index 1, .index 2, .remove 7, .remove 1] ranMap {2} rfl⟩

/-- C3, witness: on the map `{1 -> "a", 2 -> "b"}`, `remove(1)` returns and `find(1)` is then the
end cursor. -/
theorem remove_present_key_witness :
    Reachable pair2 ∧ pair2.HasKey 1 ∧
    ∃ m', pair2.remove 1 = .ok m' ∧ m'.size + 1 = pair2.size ∧
      (∃ e, m'.cend = .ok e ∧ m'.find 1 = .ok e) ∧
      (∃ p x, (pair2.table (getHash 1))[p]? = some x ∧ x.1 = 1 ∧
        m'.table = Function.update pair2.table (getHash 1)
          ((pair2.table (getHash 1)).eraseIdx p)) ∧
      (∀ i, (m'.table i).Sublist (pair2.table i)) ∧
      ∀ k', k' ≠ 1 → m'.valueOf k' = pair2.valueOf k' ∧
        (pair2.HasKey k' → m'.HasKey k' ∧ m'.find k' ≠ m'.cend) :=
  ⟨pair2_built.reachable, ⟨1, by decide, (1, "a"), by decide, rfl⟩,
    remove_present_key pair2 pair2_built.reachable 1 ⟨1, by decide, (1, "a"), by decide, rfl⟩⟩

/-- C8: for a map built by index-or-insert calls only whose highest occupied bucket is below
`TABLE_SIZE - 1`, the forward traversal from `begin()` to `end()` returns and yields the bucket
chains one after the other in increasing bucket index; each chain is in insertion order, because
an assignment to a new key appends to the end of the chain of its bucket and an assignment to a
stored key leaves the keys of every chain as they were.  In the spec's scenario (keys 5,
1000005, 3 with values "a", "b", "c") the size is 3 and the traversal is (3,"c"), (5,"a"),
(1000005,"b"). -/
theorem traverse_built [Inhabited V] (m : HashMap V) (hm : Built m)
    (hlast : ∀ i, m.table i ≠ [] → i < TABLE_SIZE - 1) (fuel : Nat) (hf : m.size ≤ fuel) :
    m.traverse fuel = some (.ok m.contents) ∧
    (∀ key v m', m.assign key v = .ok m' → ¬ m.HasKey key →
      m'.table = Function.update m.table (getHash key) (m.table (getHash key) ++ [(key, v)])) ∧
    (∀ key v m', m.assign key v = .ok m' → m.HasKey key →
      ∀ i, (m'.table i).map Prod.fst = (m.table i).map Prod.fst) ∧
    ((HashMap.empty : HashMap String).assign 5 "a" = .ok scenario1 ∧
      scenario1.assign 1000005 "b" = .ok scenario2 ∧ scenario2.assign 3 "c" = .ok scenario3 ∧
      scenario3.size = 3 ∧
      scenario3.traverse 3 = some (.ok [(3, "c"), (5, "a"), (1000005, "b")])) := by
  have wf := hm.reachable.wf
  refine ⟨traverse_eq_contents m hm (endIndex_succ_lt m hm hlast) fuel hf, ?_, ?_,
    scenario1_step, scenario2_step, scenario3_step, rfl, rfl⟩
  · intro key v m' hstep hno
    by_cases hk : getHash key < TABLE_SIZE
    · rcases hp : findPos key (m.table (getHash key)) with _ | p
      · rw [assign_absent m wf.endIndex_lt key hk hp] at hstep
        injection hstep with hstep
        subst hstep
        rfl
      · exact absurd ((hasKey_iff_findPos m wf key).mpr (by simp [hp])) hno
    · rw [assign_of_not_lt m key v hk] at hstep
      cases hstep
  · intro key v m' hstep hyes i
    by_cases hk : getHash key < TABLE_SIZE
    · rcases hp : findPos key (m.table (getHash key)) with _ | p
      · exact absurd hp ((hasKey_iff_findPos m wf key).mp hyes)
      · rw [assign_present m wf.endIndex_lt key hk p hp] at hstep
        injection hstep with hstep
        subst hstep
        obtain ⟨x, hx, hxk, -⟩ := findPos_eq_some key _ p hp
        by_cases hi : i = getHash key
        · subst hi
          simp only [Function.update_same]
          exact map_fst_set key _ p v x hx hxk
        · simp only [Function.update_noteq hi]
    · rw [assign_of_not_lt m key v hk] at hstep
      cases hstep

/-- C8, witness: the scenario map itself, traversed with fuel 3. -/
theorem traverse_built_witness :
    Built scenario3 ∧ (∀ i, scenario3.table i ≠ [] → i < TABLE_SIZE - 1) ∧
    scenario3.size ≤ 3 ∧
    (scenario3.traverse 3 = some (.ok scenario3.contents) ∧
    (∀ key v m', scenario3.assign key v = .ok m' → ¬ scenario3.HasKey key →
      m'.table = Function.update scenario3.table (getHash key)
        (scenario3.table (getHash key) ++ [(key, v)])) ∧
    (∀ key v m', scenario3.assign key v = .ok m' → scenario3.HasKey key →
      ∀ i, (m'.table i).map Prod.fst = (scenario3.table i).map Prod.fst) ∧
    ((HashMap.empty : HashMap String).assign 5 "a" = .ok scenario1 ∧
      scenario1.assign 1000005 "b" = .ok scenario2 ∧ scenario2.assign 3 "c" = .ok scenario3 ∧
      scenario3.size = 3 ∧
      scenario3.traverse 3 = some (.ok [(3, "c"), (5, "a"), (1000005, "b")]))) :=
  ⟨scenario3_built, scenario3_last, Nat.le_refl 3,
    traverse_built scenario3 scenario3_built scenario3_last 3 (Nat.le_refl 3)⟩

/-- C10: for two maps built by index-or-insert calls only, both with the highest occupied bucket
below `TABLE_SIZE - 1`, the forward traversals return, `a == b` returns, and it is true exactly
when the sizes are equal and the values met in the two traversals are equal as sequences; keys
are not compared, so `{1 -> v}` and `{2 -> v}` are equal; `a != b` is the negation. -/
theorem equals_iff_values [Inhabited V] [DecidableEq V] (a b : HashMap V) (ha : Built a)
    (hb : Built b) (hla : ∀ i, a.table i ≠ [] → i < TABLE_SIZE - 1)
    (hlb : ∀ i, b.table i ≠ [] → i < TABLE_SIZE - 1) (fuel : Nat) (hfa : a.size ≤ fuel)
    (hfb : b.size ≤ fuel) :
    ∃ ta tb r, a.traverse fuel = some (.ok ta) ∧ b.traverse fuel = some (.ok tb) ∧
      a.equals b fuel = some (.ok r) ∧
      (r = true ↔ a.size = b.size ∧ ta.map Prod.snd = tb.map Prod.snd) ∧
      a.notEquals b fuel = some (.ok (!r)) ∧
      ∀ v : V, (HashMap.empty : HashMap V).assign 1 v = .ok (single 1 v) ∧
        (HashMap.empty : HashMap V).assign 2 v = .ok (single 2 v) ∧
        (single 1 v).equals (single 2 v) 1 = some (.ok true) := by
  have hEa := endIndex_succ_lt a ha hla
  have hEb := endIndex_succ_lt b hb hlb
  have heq := equals_eq_decide a b ha hb hEa hEb fuel hfa
  refine ⟨a.contents, b.contents, _, traverse_eq_contents a ha hEa fuel hfa,
    traverse_eq_contents b hb hEb fuel hfb, heq, by simp, by simp [HashMap.notEquals, heq], ?_⟩
  intro v
  have h1 : (1 : Nat) < TABLE_SIZE := by decide
  have h2 : (2 : Nat) < TABLE_SIZE := by decide
  have b1 := single_built 1 h1 v
  have b2 := single_built 2 h2 v
  refine ⟨single_step 1 h1 v, single_step 2 h2 v, ?_⟩
  have e1 : (single 1 v).endIndex + 1 < TABLE_SIZE := by
    show 1 + 1 < TABLE_SIZE
    decide
  have e2 : (single 2 v).endIndex + 1 < TABLE_SIZE := by
    show 2 + 1 < TABLE_SIZE
    decide
  have r1 : (single 1 v).traverse 1 = some (.ok [(1, v)]) := rfl
  have r2 : (single 2 v).traverse 1 = some (.ok [(2, v)]) := rfl
  have t1 := r1.symm.trans (traverse_eq_contents (single 1 v) b1 e1 1 (Nat.le_refl 1))
  have t2 := r2.symm.trans (traverse_eq_contents (single 2 v) b2 e2 1 (Nat.le_refl 1))
  injection t1 with t1
  injection t1 with t1
  injection t2 with t2
  injection t2 with t2
  rw [equals_eq_decide (single 1 v) (single 2 v) b1 b2 e1 e2 1 (Nat.le_refl 1), ← t1, ← t2]
  simp [single]

/-- C10, witness: the maps `{1 -> "v"}` and `{2 -> "v"}`, compared with fuel 1. -/
theorem equals_iff_values_witness :
    Built (single 1 "v") ∧ Built (single 2 "v") ∧
    (∀ i, (single 1 "v").table i ≠ [] → i < TABLE_SIZE - 1) ∧
    (∀ i, (single 2 "v").table i ≠ [] → i < TABLE_SIZE - 1) ∧
    (single 1 "v").size ≤ 1 ∧ (single 2 "v").size ≤ 1 ∧
    ∃ ta tb r, (single 1 "v").traverse 1 = some (.ok ta) ∧
      (single 2 "v").traverse 1 = some (.ok tb) ∧
      (single 1 "v").equals (single 2 "v") 1 = some (.ok r) ∧
      (r = true ↔ (single 1 "v").size = (single 2 "v").size ∧
        ta.map Prod.snd = tb.map Prod.snd) ∧
      (single 1 "v").notEquals (single 2 "v") 1 = some (.ok (!r)) ∧
      ∀ v : String, (HashMap.empty : HashMap String).assign 1 v = .ok (single 1 v) ∧
        (HashMap.empty : HashMap String).assign 2 v = .ok (single 2 v) ∧
        (single 1 v).equals (single 2 v) 1 = some (.ok true) :=
  ⟨single_built 1 (by decide) "v", single_built 2 (by decide) "v",
    single_last 1 (by decide) "v", single_last 2 (by decide) "v", Nat.le_refl 1, Nat.le_refl 1,
    equals_iff_values (single 1 "v") (single 2 "v") (single_built 1 (by decide) "v")
      (single_built 2 (by decide) "v") (single_last 1 (by decide) "v")
      (single_last 2 (by decide) "v") 1 (Nat.le_refl 1) (Nat.le_refl 1)⟩

/-- C4: `valueOf` and `remove(key)` on an absent key.  On the empty map the key -1 is absent, its
hash is `2^64 - 1`, and both calls read `table[2^64 - 1]`: undefined behaviour, not the
`std::out_of_range` failure.  The key 0 fails with `std::out_of_range` in both calls, and so does
every absent key whose hash is inside the table, in every well-formed map; a call that throws has
written no member before the throw. -/
theorem absent_key_negative :
    getHash (-1) = 2 ^ 64 - 1 ∧ ¬ (HashMap.empty : HashMap String).HasKey (-1) ∧
    (HashMap.empty : HashMap String).valueOf (-1) = .error .undefined ∧
    (HashMap.empty : HashMap String).remove (-1) = .error .undefined ∧
    (HashMap.empty : HashMap String).valueOf 0
      = .error (.out_of_range "Element does no exist") ∧
    (HashMap.empty : HashMap String).remove 0
      = .error (.out_of_range "Tried to remove undefined element") ∧
    ∀ (m : HashMap V) (key : Int), m.WF → getHash key < TABLE_SIZE → ¬ m.HasKey key →
      m.valueOf key = .error (.out_of_range "Element does no exist") ∧
      m.remove key = .error (.out_of_range "Tried to remove undefined element") := by
  refine ⟨by decide, ?_, rfl, rfl, rfl, rfl, ?_⟩
  · rintro ⟨i, -, e, he, -⟩
    simp [HashMap.empty] at he
  · intro m key wf hk hno
    have hp : findPos key (m.table (getHash key)) = none := by
      by_contra h
      exact hno ((hasKey_iff_findPos m wf key).mpr h)
    exact ⟨valueOf_absent m wf.endIndex_lt key hk hp, remove_absent m wf.endIndex_lt key hk hp⟩

/-- C5: `find(key)` against the end cursor.  On the empty map no entry has key -1, yet `find(-1)`
is not the end cursor: it reads `table[2^64 - 1]`, undefined behaviour.  For a key whose hash is
inside the table, in every map reachable by index-or-insert and `remove(key)` calls, `find(key)`
is the end cursor exactly when no entry has that key, and otherwise it is the cursor at the first
entry of bucket `hash(key)` with that key, which dereferences to that entry. -/
theorem find_negative_key [Inhabited V] :
    ¬ (HashMap.empty : HashMap String).HasKey (-1) ∧
    (HashMap.empty : HashMap String).cend = .ok ⟨0, 0⟩ ∧
    (HashMap.empty : HashMap String).find (-1) = .error .undefined ∧
    ∀ (m : HashMap V) (key : Int), Reachable m → getHash key < TABLE_SIZE →
      (m.find key = m.cend ↔ ¬ m.HasKey key) ∧
      (m.HasKey key → ∃ p x, m.find key = .ok ⟨getHash key, p⟩ ∧
        (m.table (getHash key))[p]? = some x ∧ x.1 = key ∧
        (∀ q, q < p → ∀ y, (m.table (getHash key))[q]? = some y → y.1 ≠ key) ∧
        m.deref ⟨getHash key, p⟩ = .ok x) := by
  refine ⟨?_, rfl, rfl, ?_⟩
  · rintro ⟨i, -, e, he, -⟩
    simp [HashMap.empty] at he
  · intro m key hm hk
    have wf := hm.wf
    refine ⟨find_eq_cend_iff m wf key hk, fun hyes => ?_⟩
    rcases hp : findPos key (m.table (getHash key)) with _ | p
    · exact absurd hp ((hasKey_iff_findPos m wf key).mp hyes)
    · obtain ⟨x, hx, hxk, hmin⟩ := findPos_eq_some key _ p hp
      refine ⟨p, x, ?_, hx, hxk, hmin, deref_of_valid m wf.endIndex_lt _ p hk x hx⟩
      rw [find_of_lt m key hk, hp]

/-- C7: traversal of a non-empty reachable map.  After `map[1] = "a"; map[2] = "b"; remove(1)`
the map has size 1 and `beginIndex` is still 1, so `begin()` is the cursor at position 0 of
the empty bucket 1: not a real entry.  Dereferencing it is undefined behaviour, and the
traversal from `begin()` stops there without visiting the live entry (2,"b").  Apart from that,
in the map holding only key 999999 the traversal visits the entry and then advances by reading
`table[TABLE_SIZE]`, outside the table. -/
theorem begin_after_remove :
    (HashMap.empty : HashMap String).assign 1 "a" = .ok pair1 ∧
    pair1.assign 2 "b" = .ok pair2 ∧ pair2.remove 1 = .ok pair2less1 ∧
    pair2less1.size = 1 ∧ pair2less1.table 1 = [] ∧ pair2less1.table 2 = [(2, "b")] ∧
    pair2less1.cbegin = .ok ⟨1, 0⟩ ∧ pair2less1.cend = .ok ⟨2, 1⟩ ∧
    pair2less1.deref ⟨1, 0⟩ = .error .undefined ∧
    (∀ fuel, pair2less1.traverse (fuel + 1) = some (.error .undefined)) ∧
    Built (single 999999 "a") ∧ (single 999999 "a").deref ⟨999999, 0⟩ = .ok (999999, "a") ∧
    (single 999999 "a").advance ⟨999999, 0⟩ = .error .undefined ∧
    ∀ fuel, (single 999999 "a").traverse (fuel + 1) = some (.error .undefined) :=
  ⟨pair1_step, pair2_step, rfl, rfl, rfl, rfl, rfl, rfl, rfl, fun _ => rfl,
    single_built 999999 (by decide) "a", rfl, rfl, fun _ => rfl⟩

/-- C9: backward traversal of a map built by inserts only.  In `{1 -> "a", 2 -> "b"}` the forward
traversal is (1,"a"), (2,"b").  Retreating from the cursor at the first entry of bucket 2, which
is not `begin()`, lands on position 1 of bucket 1, the chain's `end()`, instead of position 0,
its last entry; dereferencing the cursor reached is undefined behaviour, so the backward
traversal does not yield (2,"b"), (1,"a"). -/
theorem retreat_lands_on_chain_end :
    Built pair2 ∧ pair2.traverse 2 = some (.ok [(1, "a"), (2, "b")]) ∧
    pair2.cbegin = .ok ⟨1, 0⟩ ∧ pair2.cend = .ok ⟨2, 1⟩ ∧
    pair2.retreat ⟨2, 1⟩ = .ok ⟨2, 0⟩ ∧ pair2.deref ⟨2, 0⟩ = .ok (2, "b") ∧
    pair2.retreat ⟨2, 0⟩ = .ok ⟨1, 1⟩ ∧ pair2.table 1 = [(1, "a")] ∧
    pair2.deref ⟨1, 1⟩ = .error .undefined ∧
    ∀ fuel, pair2.traverseBack (fuel + 2) = some (.error .undefined) :=
  ⟨pair2_built, rfl, rfl, rfl, rfl, rfl, rfl, rfl, rfl, fun _ => rfl⟩

theorem find?_set_of_ne (l : List (Int × V)) (p : Nat) (x : Int × V) (key k : Int) (v : V)
    (hx : l[p]? = some x) (hxk : x.1 = key) (hne : key ≠ k) :
    (l.set p (key, v)).find? (fun e => decide (e.1 = k))
      = l.find? (fun e => decide (e.1 = k)) := by
  induction l generalizing p with
  | nil => simp
  | cons e rest ih =>
    cases p with
    | zero =>
      simp at hx
      subst hx
      simp [List.find?_cons, hne, hxk]
    | succ p =>
      simp only [List.getElem?_cons_succ] at hx
      simp only [List.set_cons_succ, List.find?_cons, ih p hx]

theorem valueOf_assign_of_ne [Inhabited V] {m m' : HashMap V} (wf : m.WF) (key : Int) (v : V)
    (h : m.assign key v = .ok m') (k : Int) (hne : key ≠ k) : m'.valueOf k = m.valueOf k := by
  have wf' := WF_assign wf key v h
  by_cases hk' : getHash k < TABLE_SIZE
  · rw [valueOf_eq_find? m' wf'.endIndex_lt k hk', valueOf_eq_find? m wf.endIndex_lt k hk']
    by_cases hk : getHash key < TABLE_SIZE
    · rcases hp : findPos key (m.table (getHash key)) with _ | p
      · rw [assign_absent m wf.endIndex_lt key hk hp] at h
        injection h with h
        subst h
        by_cases hkk : getHash k = getHash key
        · rw [hkk]
          simp [Function.update_same, List.find?_append, hne]
        · simp only [Function.update_noteq hkk]
      · rw [assign_present m wf.endIndex_lt key hk p hp] at h
        injection h with h
        subst h
        obtain ⟨x, hx, hxk, -⟩ := findPos_eq_some key _ p hp
        by_cases hkk : getHash k = getHash key
        · rw [hkk]
          simp only [Function.update_same]
          rw [find?_set_of_ne _ p x key k v hx hxk hne]
        · simp only [Function.update_noteq hkk]
    · rw [assign_of_not_lt m key v hk] at h
      cases h
  · rw [valueOf_of_not_lt m' k hk', valueOf_of_not_lt m k hk']

theorem hasKey_assign [Inhabited V] {m m' : HashMap V} (wf : m.WF) (key : Int) (v : V)
    (h : m.assign key v = .ok m') (k : Int) : m'.HasKey k ↔ m.HasKey k ∨ k = key := by
  have wf' := WF_assign wf key v h
  rw [hasKey_iff_mem m' wf', hasKey_iff_mem m wf]
  by_cases hk : getHash key < TABLE_SIZE
  · rcases hp : findPos key (m.table (getHash key)) with _ | p
    · rw [assign_absent m wf.endIndex_lt key hk hp] at h
      injection h with h
      subst h
      by_cases hkk : getHash k = getHash key
      · rw [hkk]
        simp only [Function.update_same, List.map_append, List.mem_append, List.map_cons,
          List.map_nil, List.mem_singleton]
      · simp only [Function.update_noteq hkk]
        constructor
        · exact Or.inl
        · rintro (h1 | h1)
          · exact h1
          · exact absurd (by rw [h1]) hkk
    · rw [assign_present m wf.endIndex_lt key hk p hp] at h
      injection h with h
      subst h
      obtain ⟨x, hx, hxk, -⟩ := findPos_eq_some key _ p hp
      have hkey : key ∈ (m.table (getHash key)).map Prod.fst :=
        List.mem_map.mpr ⟨x, List.getElem?_mem hx, hxk⟩
      by_cases hkk : getHash k = getHash key
      · rw [hkk]
        simp only [Function.update_same, map_fst_set key _ p v x hx hxk]
        constructor
        · exact Or.inl
        · rintro (h1 | h1)
          · exact h1
          · rw [h1]; exact hkey
      · simp only [Function.update_noteq hkk]
        constructor
        · exact Or.inl
        · rintro (h1 | h1)
          · exact h1
          · exact absurd (by rw [h1]) hkk
  · rw [assign_of_not_lt m key v hk] at h
    cases h

theorem assign_ok_of_lt [Inhabited V] (m : HashMap V) (wf : m.WF) (key : Int)
    (hk : getHash key < TABLE_SIZE) (v : V) :
    ∃ m', m.assign key v = .ok m' ∧ m'.valueOf key = .ok v := by
  rcases hp : findPos key (m.table (getHash key)) with _ | p
  · have wf' := WF_append m wf key hk hp v
    refine ⟨_, assign_absent m wf.endIndex_lt key hk hp v, ?_⟩
    have hfp := findPos_append_new key _ v hp
    exact valueOf_present _ wf'.endIndex_lt key hk (m.table (getHash key)).length
      (by simpa using hfp) (key, v) (by simp)
  · have wf' := WF_set m wf key hk p hp v
    have hlt := findPos_lt_length key _ p hp
    refine ⟨_, assign_present m wf.endIndex_lt key hk p hp v, ?_⟩
    have hfp := findPos_set key _ p v hp
    refine valueOf_present _ wf'.endIndex_lt key hk p (by simpa using hfp) (key, v) ?_
    simp [List.getElem?_set, hlt]

theorem ofListLoop_spec [Inhabited V] (list : List (Int × V)) (m : HashMap V) (wf : m.WF)
    (hin : ∀ e ∈ list, getHash e.1 < TABLE_SIZE) :
    ∃ m', m.ofListLoop list = .ok m' ∧ m'.WF ∧
      (∀ k, m'.HasKey k ↔ m.HasKey k ∨ k ∈ list.map Prod.fst) ∧
      (∀ k, k ∉ list.map Prod.fst → m'.valueOf k = m.valueOf k) ∧
      (∀ k v front back, list = front ++ (k, v) :: back → k ∉ back.map Prod.fst →
        m'.valueOf k = .ok v) := by
  induction list generalizing m with
  | nil =>
    refine ⟨m, rfl, wf, by simp, fun _ _ => rfl, ?_⟩
    intro k v front back h
    simp at h
  | cons item rest ih =>
    have hk0 := hin item (List.mem_cons_self _ _)
    obtain ⟨m1, h1, hv1⟩ := assign_ok_of_lt m wf item.1 hk0 item.2
    have wf1 := WF_assign wf item.1 item.2 h1
    have wf2 : HashMap.WF { m1 with
        beginIndex := min m1.beginIndex (getHash item.1)
        endIndex := max m1.endIndex (getHash item.1) } :=
      ⟨max_lt wf1.endIndex_lt hk0, wf1.hash_eq, wf1.nodup, wf1.size_eq⟩
    have hval : ∀ k, HashMap.valueOf { m1 with
        beginIndex := min m1.beginIndex (getHash item.1)
        endIndex := max m1.endIndex (getHash item.1) } k = m1.valueOf k := by
      intro k
      by_cases hk : getHash k < TABLE_SIZE
      · rw [valueOf_eq_find? _ wf2.endIndex_lt k hk, valueOf_eq_find? m1 wf1.endIndex_lt k hk]
      · rw [valueOf_of_not_lt _ k hk, valueOf_of_not_lt m1 k hk]
    obtain ⟨m', h2, wf', hkeys, hframe, hlast⟩ := ih _ wf2
      (fun e he => hin e (List.mem_cons_of_mem _ he))
    refine ⟨m', ?_, wf', ?_, ?_, ?_⟩
    · simp only [HashMap.ofListLoop, h1, bind, Except.bind]
      exact h2
    · intro k
      rw [hkeys k]
      have : HashMap.HasKey { m1 with
          beginIndex := min m1.beginIndex (getHash item.1)
          endIndex := max m1.endIndex (getHash item.1) } k ↔ m1.HasKey k := Iff.rfl
      rw [this, hasKey_assign wf item.1 item.2 h1 k]
      simp only [List.map_cons, List.mem_cons]
      tauto
    · intro k hk
      simp only [List.map_cons, List.mem_cons, not_or] at hk
      rw [hframe k hk.2, hval k, valueOf_assign_of_ne wf item.1 item.2 h1 k (Ne.symm hk.1)]
    · intro k v front back hsplit hback
      cases front with
      | nil =>
        simp only [List.nil_append, List.cons.injEq] at hsplit
        obtain ⟨hitem, hrest⟩ := hsplit
        subst hrest
        rw [hframe k hback, hval k]
        rw [hitem] at hv1
        exact hv1
      | cons f front =>
        simp only [List.cons_append, List.cons.injEq] at hsplit
        exact hlast k v front back hsplit.2 hback

/-- C6: the constructor from a sequence of pairs.  From the one pair (-1,"x") the constructor
reads `table[2^64 - 1]`: undefined behaviour, no map of size 1.  From (1,"x"), (2,"y"), (1,"z")
it builds a map of size 2 in which `valueOf(1)` is "z".  For every sequence whose keys all hash
inside the table it returns a map whose size is the number of distinct keys of the sequence and
in which `valueOf` of a key is the value of the last pair with that key. -/
theorem ofList_negative_key [Inhabited V] :
    HashMap.ofList [((-1 : Int), "x")] = .error .undefined ∧
    (∃ m, HashMap.ofList [((1 : Int), "x"), (2, "y"), (1, "z")] = .ok m ∧ m.size = 2 ∧
      m.valueOf 1 = .ok "z") ∧
    ∀ list : List (Int × V), (∀ e ∈ list, getHash e.1 < TABLE_SIZE) →
      ∃ m, HashMap.ofList list = .ok m ∧ m.size = (list.map Prod.fst).toFinset.card ∧
        ∀ k v front back, list = front ++ (k, v) :: back → k ∉ back.map Prod.fst →
          m.valueOf k = .ok v := by
  refine ⟨rfl, ⟨_, rfl, rfl, rfl⟩, ?_⟩
  intro list hin
  obtain ⟨m, h, wf, hkeys, -, hlast⟩ := ofListLoop_spec list HashMap.empty WF_empty hin
  refine ⟨m, h, ?_, hlast⟩
  rw [wf.size_eq]
  refine (card_live_eq_chainTotal m wf _ ?_).symm
  intro k
  rw [hkeys k, List.mem_toFinset]
  constructor
  · exact Or.inr
  · rintro (⟨i, -, e, he, -⟩ | h1)
    · simp [HashMap.empty] at he
    · exact h1

theorem filter_chainsFrom (m : HashMap V) (wf : m.WF) (i a n : Nat) :
    (m.chainsFrom a n).filter (fun e => decide (getHash e.1 = i))
      = if a ≤ i ∧ i < a + n then m.table i else [] := by
  induction n generalizing a with
  | zero =>
    have : ¬ (a ≤ i ∧ i < a + 0) := by omega
    simp [HashMap.chainsFrom, this]
  | succ n ih =>
    simp only [HashMap.chainsFrom, List.filter_append, ih (a + 1)]
    by_cases hai : a = i
    · subst hai
      have h1 : (m.table a).filter (fun e => decide (getHash e.1 = a)) = m.table a := by
        rw [List.filter_eq_self]
        intro e he
        simpa using (wf.hash_eq a e he).1
      have h2 : ¬ (a + 1 ≤ a ∧ a < a + 1 + n) := by omega
      have h3 : a ≤ a ∧ a < a + (n + 1) := by omega
      rw [h1, if_neg h2, if_pos h3, List.append_nil]
    · have h1 : (m.table a).filter (fun e => decide (getHash e.1 = i)) = [] := by
        rw [List.filter_eq_nil_iff]
        intro e he
        have := (wf.hash_eq a e he).1
        simp only [decide_eq_true_eq]
        omega
      rw [h1, List.nil_append]
      by_cases hr : a + 1 ≤ i ∧ i < a + 1 + n
      · rw [if_pos hr, if_pos (by omega)]
      · rw [if_neg hr, if_neg (by omega)]

theorem table_eq_nil_of_not_lt (m : HashMap V) (wf : m.WF) (i : Nat) (hi : ¬ i < TABLE_SIZE) :
    m.table i = [] := by
  by_contra hne
  obtain ⟨e, he⟩ := List.exists_mem_of_ne_nil _ hne
  exact hi (wf.hash_eq i e he).2

theorem filter_contents (m : HashMap V) (wf : m.WF) (i : Nat) :
    m.contents.filter (fun e => decide (getHash e.1 = i)) = m.table i := by
  rw [HashMap.contents, filter_chainsFrom m wf i 0 TABLE_SIZE]
  by_cases hi : i < TABLE_SIZE
  · rw [if_pos (by omega)]
  · rw [if_neg (by omega), table_eq_nil_of_not_lt m wf i hi]

theorem copyLoop_pending [Inhabited V] (other : HashMap V) (wf : other.WF) (tight : other.Tight)
    (hE : other.endIndex + 1 < TABLE_SIZE) (rest : List (Int × V)) (fuel : Nat) (it : Cursor)
    (m : HashMap V) (hp : other.Pending it rest) (hf : rest.length ≤ fuel) (wfm : m.WF)
    (hb : m.beginIndex = other.beginIndex) (he : m.endIndex = other.endIndex)
    (hinv : ∀ i, m.table i ++ rest.filter (fun e => decide (getHash e.1 = i)) = other.table i) :
    ∃ m', other.copyLoop fuel it m = some (.ok m') ∧ m'.WF ∧
      m'.beginIndex = other.beginIndex ∧ m'.endIndex = other.endIndex ∧
      ∀ i, m'.table i = other.table i := by
  induction rest generalizing fuel it m with
  | nil =>
    have hc := pending_nil other it hp
    refine ⟨m, ?_, wfm, hb, he, fun i => by simpa using hinv i⟩
    cases fuel <;> simp [HashMap.copyLoop, hc]
  | cons x rest ih =>
    obtain ⟨hne, hd, it', ha, hp'⟩ := pending_cons other wf tight hE it x rest hp
    cases fuel with
    | zero => simp at hf
    | succ fuel =>
      have hne' : it ≠ ⟨other.endIndex, (other.table other.endIndex).length⟩ := by
        intro hc
        apply hne
        rw [cend_of_lt other wf.endIndex_lt, hc]
      have hx := hinv (getHash x.1)
      simp only [List.filter_cons, decide_True, if_true] at hx
      have hmem : x ∈ other.table (getHash x.1) := by
        rw [← hx]
        simp
      have hk : getHash x.1 < TABLE_SIZE := (wf.hash_eq _ x hmem).2
      have hocc : other.table (getHash x.1) ≠ [] := List.ne_nil_of_mem hmem
      have hrange := tight.between _ hocc
      have habs : findPos x.1 (m.table (getHash x.1)) = none := by
        rw [findPos_eq_none_iff]
        intro e hem hek
        have hnd := wf.nodup (getHash x.1)
        rw [← hx, List.map_append, List.map_cons, List.nodup_append] at hnd
        exact hnd.2.2 (List.mem_map.mpr ⟨e, hem, hek⟩) (List.mem_cons_self _ _)
      have hassign := assign_absent m wfm.endIndex_lt x.1 hk habs x.2
      have wfm' := WF_append m wfm x.1 hk habs x.2
      obtain ⟨m', hloop, hrest⟩ := ih fuel it' _ hp' (by simpa using hf) wfm'
        (by show min m.beginIndex (getHash x.1) = other.beginIndex; omega)
        (by show max m.endIndex (getHash x.1) = other.endIndex; omega)
        (by
          intro i
          by_cases hi : i = getHash x.1
          · subst hi
            simp only [Function.update_same, List.append_assoc, List.singleton_append]
            exact hx
          · have := hinv i
            have hne2 : ¬ getHash x.1 = i := fun h => hi h.symm
            simp only [List.filter_cons, hne2, decide_False, Bool.false_eq_true, if_false] at this
            simp only [Function.update_noteq hi]
            exact this)
      refine ⟨m', ?_, hrest⟩
      simp only [HashMap.copyLoop, cend_of_lt other wf.endIndex_lt, hne', if_false, hd, hassign,
        ha]
      exact hloop

theorem eq_empty_of_size_zero [Inhabited V] (m : HashMap V) (hm : Built m) (h : m.size = 0) :
    m = HashMap.empty := by
  have wf := hm.reachable.wf
  have ht := hm.tight
  have h1 := ht.empty_begin h
  have h2 := ht.empty_end h
  have h3 : m.table = fun _ => [] := funext (table_empty_of_size_zero m wf h)
  cases m
  simp only [HashMap.empty, HashMap.mk.injEq]
  exact ⟨h1, h2, h, h3⟩

theorem copyAssign_empty [Inhabited V] [DecidableEq V] (other : HashMap V) (ho : Built other)
    (hE : other.endIndex + 1 < TABLE_SIZE) (fuel : Nat) (hf : other.size ≤ fuel) :
    (HashMap.empty : HashMap V).copyAssign other fuel = some (.ok other) := by
  have wf := ho.reachable.wf
  by_cases hsz : other.size = 0
  · have hoe := eq_empty_of_size_zero other ho hsz
    have h01 : (HashMap.empty : HashMap V).endIndex + 1 < TABLE_SIZE := by
      show 0 + 1 < TABLE_SIZE
      decide
    have heq := equals_eq_decide (HashMap.empty : HashMap V) other Built.empty ho h01 hE
      fuel (Nat.zero_le _)
    rw [hoe] at heq ⊢
    simp only [HashMap.copyAssign, heq]
    simp
  · have heq : (HashMap.empty : HashMap V).equals other fuel = some (.ok false) := by
      have : (0 : Nat) ≠ other.size := fun h => hsz h.symm
      simp [HashMap.equals, HashMap.getSize, HashMap.empty, this]
    obtain ⟨b, hb, hp⟩ := pending_begin other wf ho.tight
    have wf0 : HashMap.WF { (HashMap.empty : HashMap V) with
        beginIndex := other.beginIndex, endIndex := other.endIndex, size := 0 } :=
      ⟨wf.endIndex_lt, by intro i e he; simp [HashMap.empty] at he,
        by intro i; simp [HashMap.empty], by simp [HashMap.empty, HashMap.chainTotal]⟩
    obtain ⟨m', hloop, wfm', h1, h2, h3⟩ := copyLoop_pending other wf ho.tight hE other.contents
      fuel b _ hp (by rw [contents_length, ← wf.size_eq]; exact hf) wf0 rfl rfl
      (by intro i; simpa [HashMap.empty] using filter_contents other wf i)
    have h4 : m'.size = other.size := by
      rw [wfm'.size_eq, wf.size_eq]
      simp only [HashMap.chainTotal, h3]
    have hm' : m' = other := by
      have h5 : m'.table = other.table := funext h3
      cases m'
      cases other
      simp only [HashMap.mk.injEq]
      exact ⟨h1, h2, h4, h5⟩
    simp only [HashMap.copyAssign, heq, hb]
    rw [hloop, hm']

/-- C11: for a map `other` built by index-or-insert calls only whose highest occupied bucket is
below `TABLE_SIZE - 1`, the copy constructor returns a map with the same chain in every bucket,
the same size, `beginIndex` and `endIndex`; its forward traversal is that of `other`, and
`copy == other` is true.  The source `other` is passed by const reference and is only read. -/
theorem copyOf_built [Inhabited V] [DecidableEq V] (other : HashMap V) (ho : Built other)
    (hlast : ∀ i, other.table i ≠ [] → i < TABLE_SIZE - 1) (fuel : Nat)
    (hf : other.size ≤ fuel) :
    ∃ c, HashMap.copyOf other fuel = some (.ok c) ∧ (∀ i, c.table i = other.table i) ∧
      c.size = other.size ∧ c.beginIndex = other.beginIndex ∧ c.endIndex = other.endIndex ∧
      c.traverse fuel = other.traverse fuel ∧ c.traverse fuel = some (.ok other.contents) ∧
      c.equals other fuel = some (.ok true) := by
  have hE := endIndex_succ_lt other ho hlast
  refine ⟨other, copyAssign_empty other ho hE fuel hf, fun _ => rfl, rfl, rfl, rfl, rfl,
    traverse_eq_contents other ho hE fuel hf, ?_⟩
  rw [equals_eq_decide other other ho ho hE hE fuel hf]
  simp

/-- C11, witness: the copy of the scenario map with keys 5, 1000005, 3. -/
theorem copyOf_built_witness :
    Built scenario3 ∧ (∀ i, scenario3.table i ≠ [] → i < TABLE_SIZE - 1) ∧ scenario3.size ≤ 3 ∧
    ∃ c, HashMap.copyOf scenario3 3 = some (.ok c) ∧ (∀ i, c.table i = scenario3.table i) ∧
      c.size = scenario3.size ∧ c.beginIndex = scenario3.beginIndex ∧
      c.endIndex = scenario3.endIndex ∧
      c.traverse 3 = scenario3.traverse 3 ∧ c.traverse 3 = some (.ok scenario3.contents) ∧
      c.equals scenario3 3 = some (.ok true) :=
  ⟨scenario3_built, scenario3_last, Nat.le_refl 3,
    copyOf_built scenario3 scenario3_built scenario3_last 3 (Nat.le_refl 3)⟩

theorem between_set (m : HashMap V) (hb : ∀ i, m.table i ≠ [] → m.beginIndex ≤ i ∧ i ≤ m.endIndex)
    (j p : Nat) (x : Int × V) (i : Nat)
    (h : Function.update m.table j ((m.table j).set p x) i ≠ []) :
    m.beginIndex ≤ i ∧ i ≤ m.endIndex := by
  apply hb i
  by_cases hi : i = j
  · subst hi
    simp only [Function.update_same] at h
    rw [← List.length_pos] at h ⊢
    simpa using h
  · simpa [Function.update_noteq hi] using h

theorem between_append (m : HashMap V)
    (hb : ∀ i, m.table i ≠ [] → m.beginIndex ≤ i ∧ i ≤ m.endIndex) (j : Nat) (x : Int × V)
    (i : Nat) (h : Function.update m.table j (m.table j ++ [x]) i ≠ []) :
    min m.beginIndex j ≤ i ∧ i ≤ max m.endIndex j := by
  by_cases hi : i = j
  · subst hi; omega
  · simp only [Function.update_noteq hi] at h
    have := hb i h
    omega

theorem between_erase (m : HashMap V)
    (hb : ∀ i, m.table i ≠ [] → m.beginIndex ≤ i ∧ i ≤ m.endIndex) (j p : Nat) (i : Nat)
    (h : Function.update m.table j ((m.table j).eraseIdx p) i ≠ []) :
    m.beginIndex ≤ i ∧ i ≤ m.endIndex := by
  apply hb i
  by_cases hi : i = j
  · subst hi
    simp only [Function.update_same] at h
    intro hnil
    rw [hnil] at h
    simp at h
  · simpa [Function.update_noteq hi] using h

theorem Reachable.between [Inhabited V] {m : HashMap V} (h : Reachable m) :
    ∀ i, m.table i ≠ [] → m.beginIndex ≤ i ∧ i ≤ m.endIndex := by
  induction h with
  | empty => intro i hi; exact absurd rfl hi
  | @index m m' c key hr hstep ih =>
    have wf := hr.wf
    by_cases hk : getHash key < TABLE_SIZE
    · rcases hp : findPos key (m.table (getHash key)) with _ | p
      · rw [index_absent m wf.endIndex_lt key hk hp] at hstep
        injection hstep with hstep
        injection hstep with h1 h2
        subst h1
        exact between_append m ih _ _
      · rw [index_present m wf.endIndex_lt key hk p hp] at hstep
        injection hstep with hstep
        injection hstep with h1 h2
        subst h1
        exact ih
    · rw [index_of_not_lt m key hk] at hstep
      cases hstep
  | @assign m m' key v hr hstep ih =>
    have wf := hr.wf
    by_cases hk : getHash key < TABLE_SIZE
    · rcases hp : findPos key (m.table (getHash key)) with _ | p
      · rw [assign_absent m wf.endIndex_lt key hk hp] at hstep
        injection hstep with hstep
        subst hstep
        exact between_append m ih _ _
      · rw [assign_present m wf.endIndex_lt key hk p hp] at hstep
        injection hstep with hstep
        subst hstep
        exact between_set m ih _ p _
    · rw [assign_of_not_lt m key v hk] at hstep
      cases hstep
  | @remove m m' key hr hstep ih =>
    have wf := hr.wf
    by_cases hk : getHash key < TABLE_SIZE
    · rcases hp : findPos key (m.table (getHash key)) with _ | p
      · rw [remove_absent m wf.endIndex_lt key hk hp] at hstep
        cases hstep
      · rw [remove_present m wf.endIndex_lt key hk p hp] at hstep
        injection hstep with hstep
        subst hstep
        exact between_erase m ih _ p
    · rw [remove_of_not_lt m key hk] at hstep
      cases hstep

theorem exists_occupied_of_size_ne_zero (m : HashMap V) (wf : m.WF) (h : m.size ≠ 0) :
    ∃ i, i < TABLE_SIZE ∧ m.table i ≠ [] := by
  by_contra hcon
  push_neg at hcon
  apply h
  rw [wf.size_eq]
  unfold HashMap.chainTotal
  apply Finset.sum_eq_zero
  intro i hi
  rw [hcon i (Finset.mem_range.mp hi)]
  rfl

theorem Reachable.beginIndex_lt [Inhabited V] {m : HashMap V} (h : Reachable m)
    (hsz : m.size ≠ 0) : m.beginIndex < TABLE_SIZE := by
  obtain ⟨i, hi, hocc⟩ := exists_occupied_of_size_ne_zero m h.wf hsz
  have := (h.between i hocc).1
  omega

theorem pair1less1_reachable : Reachable pair1less1 :=
  .remove 1 (.assign 1 "a" .empty pair1_step) rfl

theorem pair2less2_reachable : Reachable pair2less2 :=
  .remove 2 pair2_built.reachable rfl

/-- C12: the active-range invariant.  After `map[1] = "a"; map[2] = "b"; remove(1)` the map is
non-empty and bucket `beginIndex` = 1 is empty; after `map[1] = "a"; map[2] = "b"; remove(2)`
bucket `endIndex` = 2 is empty; after `map[1] = "a"; remove(1)` the map is empty with
`beginIndex` = `endIndex` = 1 instead of `TABLE_SIZE` and 0.  What every reachable map keeps is
that each occupied bucket lies in [`beginIndex`, `endIndex`] and `endIndex` is inside the table;
maps built without removals keep the whole invariant. -/
theorem range_after_remove [Inhabited V] :
    (Reachable pair2less1 ∧ pair2less1.size = 1 ∧ pair2less1.beginIndex = 1 ∧
      pair2less1.table 1 = []) ∧
    (Reachable pair2less2 ∧ pair2less2.size = 1 ∧ pair2less2.endIndex = 2 ∧
      pair2less2.table 2 = []) ∧
    (Reachable pair1less1 ∧ pair1less1.size = 0 ∧ pair1less1.beginIndex = 1 ∧
      pair1less1.endIndex = 1) ∧
    (∀ m : HashMap V, Reachable m →
      m.endIndex < TABLE_SIZE ∧ ∀ i, m.table i ≠ [] → m.beginIndex ≤ i ∧ i ≤ m.endIndex) ∧
    (∀ m : HashMap V, Built m →
      (m.size ≠ 0 → m.table m.beginIndex ≠ [] ∧ m.table m.endIndex ≠ [] ∧
        ∀ i, m.table i ≠ [] → m.beginIndex ≤ i ∧ i ≤ m.endIndex) ∧
      (m.size = 0 → m.beginIndex = TABLE_SIZE ∧ m.endIndex = 0)) :=
  ⟨⟨pair2less1_reachable, rfl, rfl, rfl⟩, ⟨pair2less2_reachable, rfl, rfl, rfl⟩,
    ⟨pair1less1_reachable, rfl, rfl, rfl⟩,
    fun _ hm => ⟨hm.wf.endIndex_lt, hm.between⟩,
    fun _ hm => ⟨fun h => ⟨hm.tight.begin_occupied h, hm.tight.end_occupied h, hm.tight.between⟩,
      fun h => ⟨hm.tight.empty_begin h, hm.tight.empty_end h⟩⟩⟩

theorem ext_of_fields (a b : HashMap V) (h1 : a.beginIndex = b.beginIndex)
    (h2 : a.endIndex = b.endIndex) (h3 : a.size = b.size) (h4 : ∀ i, a.table i = b.table i) :
    a = b := by
  have h5 : a.table = b.table := funext h4
  cases a
  cases b
  simp only [HashMap.mk.injEq]
  exact ⟨h1, h2, h3, h5⟩

theorem built_eq_of_table_eq [Inhabited V] (a b : HashMap V) (ha : Built a) (hb : Built b)
    (h : ∀ i, a.table i = b.table i) : a = b := by
  have wfa := ha.reachable.wf
  have wfb := hb.reachable.wf
  have hsz : a.size = b.size := by
    rw [wfa.size_eq, wfb.size_eq]
    simp only [HashMap.chainTotal, h]
  refine ext_of_fields a b ?_ ?_ hsz h
  · by_cases h0 : a.size = 0
    · rw [ha.tight.empty_begin h0, hb.tight.empty_begin (hsz ▸ h0)]
    · have h0' : b.size ≠ 0 := hsz ▸ h0
      have h1 := (hb.tight.between _ (by rw [← h]; exact ha.tight.begin_occupied h0)).1
      have h2 := (ha.tight.between _ (by rw [h]; exact hb.tight.begin_occupied h0')).1
      omega
  · by_cases h0 : a.size = 0
    · rw [ha.tight.empty_end h0, hb.tight.empty_end (hsz ▸ h0)]
    · have h0' : b.size ≠ 0 := hsz ▸ h0
      have h1 := (hb.tight.between _ (by rw [← h]; exact ha.tight.end_occupied h0)).2
      have h2 := (ha.tight.between _ (by rw [h]; exact hb.tight.end_occupied h0')).2
      omega

/-- C13: `begin()` and `end()` against the content.  The map left by `map[1] = "a"; map[2] = "b";
remove(1)` and the map left by `map[2] = "b"` alone have the same chain in every bucket, yet
`begin()` is (bucket 1, position 0) in the first and (bucket 2, position 0) in the second.
The map left by `map[1] = "a"; map[2] = "b"; remove(2)` and the map left by `map[1] = "a"` alone
have the same chains, yet `end()` is (2, 0) in the first and (1, 1) in the second.  For maps
built without removals equal tables give equal `begin()` and `end()`. -/
theorem begin_depends_on_history [Inhabited V] :
    (Reachable pair2less1 ∧ Reachable (single 2 "b") ∧
      (∀ i, pair2less1.table i = (single 2 "b").table i) ∧
      pair2less1.cbegin = .ok ⟨1, 0⟩ ∧ (single 2 "b").cbegin = .ok ⟨2, 0⟩) ∧
    (Reachable pair2less2 ∧ Reachable pair1 ∧ (∀ i, pair2less2.table i = pair1.table i) ∧
      pair2less2.cend = .ok ⟨2, 0⟩ ∧ pair1.cend = .ok ⟨1, 1⟩) ∧
    ∀ a b : HashMap V, Built a → Built b → (∀ i, a.table i = b.table i) →
      a.cbegin = b.cbegin ∧ a.cend = b.cend := by
  refine ⟨⟨pair2less1_reachable, (single_built 2 (by decide) "b").reachable, ?_, rfl, rfl⟩,
    ⟨pair2less2_reachable, .assign 1 "a" .empty pair1_step, ?_, rfl, rfl⟩, ?_⟩
  · intro i
    by_cases h1 : i = 1
    · subst h1; rfl
    · by_cases h2 : i = 2
      · subst h2; rfl
      · simp [pair2less1, pair2, pair1, single, Function.update, h1, h2]
  · intro i
    by_cases h1 : i = 1
    · subst h1; rfl
    · by_cases h2 : i = 2
      · subst h2; rfl
      · simp [pair2less2, pair2, pair1, Function.update, h1, h2]
  · intro a b ha hb h
    rw [built_eq_of_table_eq a b ha hb h]
    exact ⟨rfl, rfl⟩

theorem getHash_of_nonneg (key : Int) (h : 0 ≤ key) : getHash key < TABLE_SIZE := by
  unfold getHash TABLE_SIZE
  rw [Int.tmod_eq_emod h (by decide)]
  omega

theorem getHash_of_neg (key : Int) (h : key < 0) (hd : ¬ ((TABLE_SIZE : Nat) : Int) ∣ key) :
    TABLE_SIZE ≤ getHash key := by
  obtain ⟨n, rfl⟩ := Int.eq_negSucc_of_lt_zero h
  have h1 : Int.tmod (Int.negSucc n) ((TABLE_SIZE : Nat) : Int)
      = -(((n + 1) % TABLE_SIZE : Nat) : Int) := rfl
  have h2 : (n + 1) % TABLE_SIZE ≠ 0 := by
    intro h0
    apply hd
    have hdvd : TABLE_SIZE ∣ n + 1 := Nat.dvd_of_mod_eq_zero h0
    have : ((TABLE_SIZE : Nat) : Int) ∣ ((n + 1 : Nat) : Int) := Int.natCast_dvd_natCast.mpr hdvd
    have hneg : Int.negSucc n = -((n + 1 : Nat) : Int) := rfl
    rw [hneg]
    exact (Int.dvd_neg).mpr this
  have h3 : (n + 1) % TABLE_SIZE < TABLE_SIZE := Nat.mod_lt _ TABLE_SIZE_pos
  unfold getHash
  rw [h1]
  generalize (n + 1) % TABLE_SIZE = s at h2 h3 ⊢
  unfold TABLE_SIZE at h3 ⊢
  omega

/-- C14: the bucket index of the hasher.  For the key -1 the truncated remainder is -1 and its
conversion to the unsigned 64-bit size type is `2^64 - 1`, which is not below `TABLE_SIZE`; the
index is in range exactly for the non-negative keys and the multiples of `TABLE_SIZE`.  The
hasher is a function of the key alone. -/
theorem getHash_negative :
    Int.tmod (-1) (TABLE_SIZE : Int) = -1 ∧ getHash (-1) = 2 ^ 64 - 1 ∧
    ¬ getHash (-1) < TABLE_SIZE ∧
    (∀ key : Int, 0 ≤ key → getHash key < TABLE_SIZE) ∧
    (∀ key : Int, key < 0 → ¬ ((TABLE_SIZE : Nat) : Int) ∣ key → TABLE_SIZE ≤ getHash key) ∧
    ∀ key other : Int, key = other → getHash key = getHash other :=
  ⟨by decide, by decide, by decide, getHash_of_nonneg, getHash_of_neg,
    fun _ _ h => congrArg getHash h⟩

theorem removeAt_cend (m : HashMap V) (hE : m.endIndex < TABLE_SIZE) :
    m.removeAt ⟨m.endIndex, (m.table m.endIndex).length⟩
      = .error (.out_of_range "Tried to remove end!") := by
  simp [HashMap.removeAt, cend_of_lt m hE, bind, Except.bind, throw, throwThe,
    MonadExceptOf.throw]

theorem advance_cend (m : HashMap V) (hE : m.endIndex < TABLE_SIZE) :
    m.advance ⟨m.endIndex, (m.table m.endIndex).length⟩
      = .error (.out_of_range "Tried to increment collection end") := by
  simp [HashMap.advance, cend_of_lt m hE, bind, Except.bind, throw, throwThe,
    MonadExceptOf.throw]

theorem deref_cend (m : HashMap V) (hE : m.endIndex < TABLE_SIZE) :
    m.deref ⟨m.endIndex, (m.table m.endIndex).length⟩
      = .error (.out_of_range "Dereferencing map end") := by
  simp [HashMap.deref, cend_of_lt m hE, bind, Except.bind, throw, throwThe,
    MonadExceptOf.throw]

theorem retreat_cbegin (m : HashMap V) (b : Cursor) (hb : m.cbegin = .ok b) :
    m.retreat b = .error (.out_of_range "Tried to decrement collection begin") := by
  simp [HashMap.retreat, hb, bind, Except.bind, throw, throwThe, MonadExceptOf.throw]

theorem Reachable.cbegin_ok [Inhabited V] {m : HashMap V} (h : Reachable m) :
    ∃ b, m.cbegin = .ok b := by
  by_cases hsz : m.size = 0
  · exact ⟨⟨m.endIndex, (m.table m.endIndex).length⟩, by
      simp [HashMap.cbegin, HashMap.isEmpty, HashMap.getSize, hsz,
        cend_of_lt m h.wf.endIndex_lt]⟩
  · exact ⟨⟨m.beginIndex, 0⟩, by
      simp [HashMap.cbegin, HashMap.isEmpty, HashMap.getSize, hsz,
        tableAt_of_lt m (h.beginIndex_lt hsz), bind, Except.bind, pure, Except.pure]⟩

/-- C15: the failures a caller can meet.  In every reachable map, for an absent key whose hash is
inside the table, `valueOf` and `remove(key)` throw (NotFound), `remove(end())` throws
(InvalidCursor), and `++end()`, `--begin()` and `*end()` throw (OutOfRange).  All six are
`std::out_of_range`; their `what()` texts differ between any two of the three kinds, so the
errors of different kinds are different values. -/
theorem failure_kinds_distinct [Inhabited V] (m : HashMap V) (hm : Reachable m) (key : Int)
    (hk : getHash key < TABLE_SIZE) (habs : ¬ m.HasKey key) :
    ∃ (e b : Cursor) (notFound1 notFound2 invalidCursor range1 range2 range3 : Fault),
      m.cend = .ok e ∧ m.cbegin = .ok b ∧
      m.valueOf key = .error notFound1 ∧ m.remove key = .error notFound2 ∧
      m.removeAt e = .error invalidCursor ∧
      m.advance e = .error range1 ∧ m.retreat b = .error range2 ∧ m.deref e = .error range3 ∧
      (∀ x ∈ [notFound1, notFound2], x ≠ invalidCursor) ∧
      (∀ x ∈ [notFound1, notFound2], ∀ y ∈ [range1, range2, range3], x ≠ y) ∧
      (∀ y ∈ [range1, range2, range3], invalidCursor ≠ y) ∧
      (∀ x ∈ [notFound1, notFound2, invalidCursor, range1, range2, range3],
        ∃ what, x = .out_of_range what) := by
  have wf := hm.wf
  obtain ⟨b, hb⟩ := hm.cbegin_ok
  have hp : findPos key (m.table (getHash key)) = none := by
    by_contra h
    exact habs ((hasKey_iff_findPos m wf key).mpr h)
  refine ⟨_, b, _, _, _, _, _, _, cend_of_lt m wf.endIndex_lt, hb,
    valueOf_absent m wf.endIndex_lt key hk hp, remove_absent m wf.endIndex_lt key hk hp,
    removeAt_cend m wf.endIndex_lt, advance_cend m wf.endIndex_lt, retreat_cbegin m b hb,
    deref_cend m wf.endIndex_lt, by decide, by decide, by decide, ?_⟩
  intro x hx
  simp only [List.mem_cons, List.mem_singleton, List.not_mem_nil, or_false] at hx
  rcases hx with h | h | h | h | h | h <;> exact ⟨_, h⟩

theorem pair2less1_no_key1 : ¬ pair2less1.HasKey 1 := by
  rw [hasKey_iff_mem pair2less1 pair2less1_reachable.wf]
  decide

/-- C15, witness: the map left by `map[1] = "a"; map[2] = "b"; remove(1)` and the absent key 1. -/
theorem failure_kinds_distinct_witness :
    Reachable pair2less1 ∧ getHash 1 < TABLE_SIZE ∧ ¬ pair2less1.HasKey 1 ∧
    ∃ (e b : Cursor) (notFound1 notFound2 invalidCursor range1 range2 range3 : Fault),
      pair2less1.cend = .ok e ∧ pair2less1.cbegin = .ok b ∧
      pair2less1.valueOf 1 = .error notFound1 ∧ pair2less1.remove 1 = .error notFound2 ∧
      pair2less1.removeAt e = .error invalidCursor ∧
      pair2less1.advance e = .error range1 ∧ pair2less1.retreat b = .error range2 ∧
      pair2less1.deref e = .error range3 ∧
      (∀ x ∈ [notFound1, notFound2], x ≠ invalidCursor) ∧
      (∀ x ∈ [notFound1, notFound2], ∀ y ∈ [range1, range2, range3], x ≠ y) ∧
      (∀ y ∈ [range1, range2, range3], invalidCursor ≠ y) ∧
      (∀ x ∈ [notFound1, notFound2, invalidCursor, range1, range2, range3],
        ∃ what, x = .out_of_range what) :=
  ⟨pair2less1_reachable, by decide, pair2less1_no_key1,
    failure_kinds_distinct pair2less1 pair2less1_reachable 1 (by decide) pair2less1_no_key1⟩

theorem advance_of_valid (m : HashMap V) (hE : m.endIndex < TABLE_SIZE) (c : Cursor)
    (hi : c.index < TABLE_SIZE) (hp : c.pos < (m.table c.index).length) :
    m.advance c = if c.pos + 1 ≠ (m.table c.index).length
      then .ok ⟨c.index, c.pos + 1⟩
      else m.scanUp m.endIndex (TABLE_SIZE - c.index) c.index := by
  have hne : c ≠ ⟨m.endIndex, (m.table m.endIndex).length⟩ := found_ne_end m c.index c.pos hp
  simp only [HashMap.advance, cend_of_lt m hE, tableAt_of_lt m hi, bind, Except.bind, pure,
    Except.pure, hne, if_false, HashMap.getEndIndex,
    show ¬ (m.table c.index).length ≤ c.pos by omega]

theorem advance_last_bucket (m : HashMap V) (hE : m.endIndex < TABLE_SIZE) (i p : Nat)
    (hi : i + 1 = TABLE_SIZE) (hp : p + 1 = (m.table i).length) :
    m.advance ⟨i, p⟩ = .error .undefined := by
  rw [advance_of_valid m hE ⟨i, p⟩ (by show i < TABLE_SIZE; omega)
    (by show p < (m.table i).length; omega)]
  rw [if_neg (by show ¬ p + 1 ≠ (m.table i).length; omega)]
  exact scanUp_outside m m.endIndex i (by omega)

theorem advance_valid [Inhabited V] (m : HashMap V) (hm : Built m)
    (hE : m.endIndex + 1 < TABLE_SIZE) (c : Cursor) (hc : m.Valid c) :
    ∃ x rest c', m.restFrom c = x :: rest ∧ m.deref c = .ok x ∧ m.advance c = .ok c' ∧
      m.Pending c' rest := by
  obtain ⟨x, hx⟩ : ∃ x, (m.table c.index).drop c.pos
      = x :: (m.table c.index).drop (c.pos + 1) := ⟨_, List.drop_eq_getElem_cons hc.2⟩
  have hrest : m.restFrom c = x ::
      ((m.table c.index).drop (c.pos + 1)
        ++ m.chainsFrom (c.index + 1) (m.endIndex - c.index)) := by
    unfold HashMap.restFrom
    rw [hx, List.cons_append]
  obtain ⟨-, hd, c', ha, hp⟩ := pending_cons m hm.reachable.wf hm.tight hE c _ _
    (Or.inr ⟨hc, hrest⟩)
  exact ⟨_, _, c', hrest, hd, ha, hp⟩

/-- C16: bounds of `operator++`.  In the map holding only key 999999, built by one insert, the
cursor at its entry is at a real entry, and advancing it evaluates
`getListAtIndexReference(++index)` with index `TABLE_SIZE`: a read outside the table.  The same
happens in every map at the last entry of the last bucket.  In maps built by inserts whose
`endIndex` is below `TABLE_SIZE - 1`, advancing a cursor at a real entry returns the cursor of
the next entry in traversal order, or the end cursor when none is left. -/
theorem advance_reads_past_table [Inhabited V] :
    Built (single 999999 "a") ∧ 999999 + 1 = TABLE_SIZE ∧
    (single 999999 "a").table 999999 = [(999999, "a")] ∧
    (single 999999 "a").deref ⟨999999, 0⟩ = .ok (999999, "a") ∧
    (single 999999 "a").tableAt TABLE_SIZE = .error .undefined ∧
    (single 999999 "a").advance ⟨999999, 0⟩ = .error .undefined ∧
    (∀ (m : HashMap V) (i p : Nat), m.endIndex < TABLE_SIZE → i + 1 = TABLE_SIZE →
      p + 1 = (m.table i).length → m.advance ⟨i, p⟩ = .error .undefined) ∧
    (∀ (m : HashMap V) (c : Cursor), Built m → m.endIndex + 1 < TABLE_SIZE → m.Valid c →
      ∃ x rest c', m.restFrom c = x :: rest ∧ m.deref c = .ok x ∧ m.advance c = .ok c' ∧
        m.Pending c' rest) :=
  ⟨single_built 999999 (by decide) "a", rfl, rfl, rfl, rfl, rfl,
    fun m i p hE hi hp => advance_last_bucket m hE i p hi hp,
    fun m c hm hE hc => advance_valid m hm hE c hc⟩

theorem scanDown_zero (m : HashMap V) (i : Nat) (hi : i ≤ TABLE_SIZE)
    (hemp : ∀ k, k < i → m.table k = []) : m.scanDown 0 i = .error .undefined := by
  induction i with
  | zero => rfl
  | succ i ih =>
    simp only [HashMap.scanDown, tableAt_of_lt m (show i < TABLE_SIZE by omega), bind,
      Except.bind, hemp i (Nat.lt_succ_self i), List.isEmpty_nil, if_true, Nat.not_lt_zero,
      if_false]
    exact ih (by omega) (fun k hk => hemp k (by omega))

theorem scanDown_pos (m : HashMap V) (b i : Nat) (hb : 0 < b) (h0 : 0 < i)
    (hi : i ≤ TABLE_SIZE) (hemp : ∀ k, k < i → m.table k = []) :
    m.scanDown b i = m.cbegin := by
  induction i with
  | zero => omega
  | succ i ih =>
    simp only [HashMap.scanDown, tableAt_of_lt m (show i < TABLE_SIZE by omega), bind,
      Except.bind, hemp i (Nat.lt_succ_self i), List.isEmpty_nil, if_true]
    by_cases hlt : i < b
    · rw [if_pos hlt]
    · rw [if_neg hlt]
      exact ih (by omega) (by omega) (fun k hk => hemp k (by omega))

theorem retreat_first_entry (m : HashMap V) (c b : Cursor) (hb : m.cbegin = .ok b)
    (hne : c ≠ b) (hi : c.index < TABLE_SIZE) (hpos : c.pos = 0) :
    m.retreat c = m.scanDown m.beginIndex c.index := by
  simp [HashMap.retreat, hb, hne, tableAt_of_lt m hi, hpos, bind, Except.bind, pure,
    Except.pure, HashMap.getBeginIndex]

theorem low2_step : (single 0 "a" : HashMap String).assign 1 "b" = .ok low2 :=
  (assign_absent (single 0 "a") (by decide) 1 (by decide) rfl "b").trans rfl

theorem low2less0_reachable : Reachable low2less0 :=
  .remove 0 (.assign 1 "b" (single_built 0 (by decide) "a").reachable low2_step) rfl

/-- C17: bounds of `operator--`.  After `map[0] = "a"; map[1] = "b"; remove(0)` the entry (1,"b")
is the only one, `beginIndex` is still 0 and `begin()` is (bucket 0, position 0).  The cursor at
(1,"b") is at a real entry and is not `begin()`; no occupied bucket lies below it.  Retreating it
scans bucket 0, finds it empty, does not stop because 0 is not below `beginIndex`, and
decrements the index below zero: a read outside the table, not the begin cursor.  In general,
from the first entry of a chain with only empty buckets below, retreat is undefined when
`beginIndex` is 0 and returns `begin()` when `beginIndex` is positive. -/
theorem retreat_wraps_below_zero [Inhabited V] :
    Reachable low2less0 ∧ low2less0.size = 1 ∧ low2less0.beginIndex = 0 ∧
    low2less0.table 0 = [] ∧ low2less0.cbegin = .ok ⟨0, 0⟩ ∧
    low2less0.deref ⟨1, 0⟩ = .ok (1, "b") ∧
    low2less0.retreat ⟨1, 0⟩ = .error .undefined ∧
    (∀ (m : HashMap V) (c b : Cursor), m.cbegin = .ok b → c ≠ b → c.index < TABLE_SIZE →
      c.pos = 0 → (∀ k, k < c.index → m.table k = []) → m.beginIndex = 0 →
      m.retreat c = .error .undefined) ∧
    (∀ (m : HashMap V) (c b : Cursor), Reachable m → m.cbegin = .ok b → c ≠ b →
      c.index < TABLE_SIZE → c.pos = 0 → m.table c.index ≠ [] →
      (∀ k, k < c.index → m.table k = []) → 0 < m.beginIndex →
      m.retreat c = .ok b) := by
  refine ⟨low2less0_reachable, rfl, rfl, rfl, rfl, rfl, rfl, ?_, ?_⟩
  · intro m c b hb hne hi hpos hemp h0
    rw [retreat_first_entry m c b hb hne hi hpos, h0]
    exact scanDown_zero m c.index (by omega) hemp
  · intro m c b hm hb hne hi hpos hocc hemp h0
    have := (hm.between c.index hocc).1
    rw [retreat_first_entry m c b hb hne hi hpos,
      scanDown_pos m m.beginIndex c.index h0 (by omega) (by omega) hemp, hb]

theorem two_chains_le_chainTotal (m : HashMap V) (i j : Nat) (hij : i ≠ j)
    (hi : i < TABLE_SIZE) (hj : j < TABLE_SIZE) :
    (m.table i).length + (m.table j).length ≤ m.chainTotal := by
  unfold HashMap.chainTotal
  have hsub : ({i, j} : Finset Nat) ⊆ Finset.range TABLE_SIZE := by
    intro k hk
    simp only [Finset.mem_insert, Finset.mem_singleton] at hk
    rcases hk with rfl | rfl <;> exact Finset.mem_range.mpr (by assumption)
  have := Finset.sum_le_sum_of_subset (f := fun k => (m.table k).length) hsub
  rwa [Finset.sum_pair hij] at this

theorem moveAssign_of_equals [DecidableEq V] (a b : HashMap V) (fuel : Nat) (eq : Bool)
    (h : a.equals b fuel = some (.ok eq)) :
    a.moveAssign b fuel = some (.ok (if eq then a else b)) := by
  cases eq <;> simp [HashMap.moveAssign, h]

theorem copyAssign_of_equals_true [Inhabited V] [DecidableEq V] (a b : HashMap V) (fuel : Nat)
    (h : a.equals b fuel = some (.ok true)) : a.copyAssign b fuel = some (.ok a) := by
  simp [HashMap.copyAssign, h]

/-- C19, as stated, fails: the maps `{1 -> "v"}` and `{2 -> "v"}` are built by one insert each,
`target == other` is true because only values are compared, and the move assignment returns
without moving: the target keeps its table, `beginIndex` and `endIndex`; key 2 of `other` is not
found in the target and key 1, absent from `other`, is. -/
theorem moveAssign_skips_equal_values :
    Built (single 1 "v") ∧ Built (single 2 "v") ∧
    (single 1 "v").equals (single 2 "v") 1 = some (.ok true) ∧
    (single 1 "v").moveAssign (single 2 "v") 1 = some (.ok (single 1 "v")) ∧
    (single 1 "v").table 2 ≠ (single 2 "v").table 2 ∧
    (single 1 "v").beginIndex ≠ (single 2 "v").beginIndex ∧
    (single 1 "v").endIndex ≠ (single 2 "v").endIndex ∧
    (single 2 "v").valueOf 2 = .ok "v" ∧
    (single 1 "v").valueOf 2 = .error (.out_of_range "Element does no exist") ∧
    (single 2 "v").valueOf 1 = .error (.out_of_range "Element does no exist") ∧
    (single 1 "v").valueOf 1 = .ok "v" :=
  ⟨single_built 1 (by decide) "v", single_built 2 (by decide) "v", rfl, rfl, by decide,
    by decide, by decide, rfl, rfl, rfl, rfl⟩

/-- C19, amended: for two maps built by index-or-insert calls only, each with its highest
occupied bucket below `TABLE_SIZE - 1`, the move assignment `target = move(other)` returns; when
`target == other` held (same size and same sequence of values in traversal order, keys not
compared) the target is left exactly as it was, and otherwise the target's table, size,
`beginIndex` and `endIndex` are exactly those `other` had, so every lookup in the target gives
what it gave in `other`. -/
theorem moveAssign_built [Inhabited V] [DecidableEq V] (a b : HashMap V) (ha : Built a)
    (hb : Built b) (hla : ∀ i, a.table i ≠ [] → i < TABLE_SIZE - 1)
    (hlb : ∀ i, b.table i ≠ [] → i < TABLE_SIZE - 1) (fuel : Nat) (hfa : a.size ≤ fuel)
    (hfb : b.size ≤ fuel) :
    ∃ ta tb eq r, a.traverse fuel = some (.ok ta) ∧ b.traverse fuel = some (.ok tb) ∧
      a.equals b fuel = some (.ok eq) ∧
      (eq = true ↔ a.size = b.size ∧ ta.map Prod.snd = tb.map Prod.snd) ∧
      a.moveAssign b fuel = some (.ok r) ∧
      (eq = true → r = a) ∧
      (eq = false → r = b ∧ r.table = b.table ∧ r.size = b.size ∧
        r.beginIndex = b.beginIndex ∧ r.endIndex = b.endIndex ∧
        ∀ key, r.find key = b.find key ∧ r.valueOf key = b.valueOf key) := by
  have hEa := endIndex_succ_lt a ha hla
  have hEb := endIndex_succ_lt b hb hlb
  have heq := equals_eq_decide a b ha hb hEa hEb fuel hfa
  refine ⟨a.contents, b.contents, _, _, traverse_eq_contents a ha hEa fuel hfa,
    traverse_eq_contents b hb hEb fuel hfb, heq, by simp, moveAssign_of_equals a b fuel _ heq,
    ?_, ?_⟩
  · intro h
    rw [h]
    rfl
  · intro h
    rw [h]
    exact ⟨rfl, rfl, rfl, rfl, rfl, fun _ => ⟨rfl, rfl⟩⟩

/-- C19, amended, witness: moving `{2 -> "b"}` into `{1 -> "a"}`. -/
theorem moveAssign_built_witness :
    Built (single 1 "a") ∧ Built (single 2 "b") ∧
    (∀ i, (single 1 "a").table i ≠ [] → i < TABLE_SIZE - 1) ∧
    (∀ i, (single 2 "b").table i ≠ [] → i < TABLE_SIZE - 1) ∧
    (single 1 "a").size ≤ 1 ∧ (single 2 "b").size ≤ 1 ∧
    ∃ ta tb eq r, (single 1 "a").traverse 1 = some (.ok ta) ∧
      (single 2 "b").traverse 1 = some (.ok tb) ∧
      (single 1 "a").equals (single 2 "b") 1 = some (.ok eq) ∧
      (eq = true ↔ (single 1 "a").size = (single 2 "b").size ∧
        ta.map Prod.snd = tb.map Prod.snd) ∧
      (single 1 "a").moveAssign (single 2 "b") 1 = some (.ok r) ∧
      (eq = true → r = single 1 "a") ∧
      (eq = false → r = single 2 "b" ∧ r.table = (single 2 "b").table ∧
        r.size = (single 2 "b").size ∧
        r.beginIndex = (single 2 "b").beginIndex ∧ r.endIndex = (single 2 "b").endIndex ∧
        ∀ key, r.find key = (single 2 "b").find key ∧
          r.valueOf key = (single 2 "b").valueOf key) :=
  ⟨single_built 1 (by decide) "a", single_built 2 (by decide) "b",
    single_last 1 (by decide) "a", single_last 2 (by decide) "b", Nat.le_refl 1, Nat.le_refl 1,
    moveAssign_built (single 1 "a") (single 2 "b") (single_built 1 (by decide) "a")
      (single_built 2 (by decide) "b") (single_last 1 (by decide) "a")
      (single_last 2 (by decide) "b") 1 (Nat.le_refl 1) (Nat.le_refl 1)⟩

/-- C18, as stated, fails.  With target `{1 -> "v"}` and other `{2 -> "v"}`, `target == other` is
true because only values are compared, and the copy assignment returns at once: the chains of the
target are not those of `other`.  With target `{1 -> "a"}` and other `{2 -> "b"}` the assignment
sets `size` to zero, leaves the table as it is and inserts (2,"b"): the target then holds both
(1,"a") and (2,"b"), key 1 is found in it though `other` does not have it, and its size 1 is
below the sum 2 of its bucket lengths. -/
theorem copyAssign_keeps_target_entries :
    (Built (single 1 "v") ∧ Built (single 2 "v") ∧
      (single 1 "v").copyAssign (single 2 "v") 1 = some (.ok (single 1 "v")) ∧
      (single 1 "v").table 1 ≠ (single 2 "v").table 1 ∧
      (single 1 "v").table 2 ≠ (single 2 "v").table 2) ∧
    (Built pair1 ∧ Built (single 2 "b") ∧
      ∃ r, pair1.copyAssign (single 2 "b") 1 = some (.ok r) ∧
        r.table 1 = [(1, "a")] ∧ (single 2 "b").table 1 = [] ∧ r.table 2 = [(2, "b")] ∧
        r.valueOf 1 = .ok "a" ∧
        (single 2 "b").valueOf 1 = .error (.out_of_range "Element does no exist") ∧
        r.size = 1 ∧ (single 2 "b").size = 1 ∧ 2 ≤ r.chainTotal) := by
  refine ⟨⟨single_built 1 (by decide) "v", single_built 2 (by decide) "v", rfl, by decide,
    by decide⟩, .assign 1 "a" .empty pair1_step, single_built 2 (by decide) "b",
    _, rfl, rfl, rfl, rfl, rfl, rfl, rfl, rfl, ?_⟩
  refine Nat.le_trans ?_ (two_chains_le_chainTotal _ 1 2 (by decide) (by decide) (by decide))
  exact Nat.le_of_eq rfl

/-- C18, amended: for two maps built by index-or-insert calls only, each with its highest
occupied bucket below `TABLE_SIZE - 1`: when `target == other` holds before the call (same size
and same sequence of values in traversal order, keys not compared) the copy assignment leaves
the target exactly as it was; when the target is empty, after `target = other` every bucket chain
of the target is the corresponding chain of `other`, the sizes are equal, a key is found in the
target exactly when it is found in `other`, and the size of the target is the sum of its bucket
lengths. -/
theorem copyAssign_built [Inhabited V] [DecidableEq V] (a b : HashMap V) (ha : Built a)
    (hb : Built b) (hla : ∀ i, a.table i ≠ [] → i < TABLE_SIZE - 1)
    (hlb : ∀ i, b.table i ≠ [] → i < TABLE_SIZE - 1) (fuel : Nat) (hfa : a.size ≤ fuel)
    (hfb : b.size ≤ fuel) :
    ∃ ta tb eq, a.traverse fuel = some (.ok ta) ∧ b.traverse fuel = some (.ok tb) ∧
      a.equals b fuel = some (.ok eq) ∧
      (eq = true ↔ a.size = b.size ∧ ta.map Prod.snd = tb.map Prod.snd) ∧
      (eq = true → a.copyAssign b fuel = some (.ok a)) ∧
      (a.size = 0 → ∃ r, a.copyAssign b fuel = some (.ok r) ∧
        (∀ i, r.table i = b.table i) ∧ r.size = b.size ∧
        (∀ key, (r.HasKey key ↔ b.HasKey key) ∧ r.find key = b.find key) ∧
        r.size = r.chainTotal) := by
  have hEa := endIndex_succ_lt a ha hla
  have hEb := endIndex_succ_lt b hb hlb
  have heq := equals_eq_decide a b ha hb hEa hEb fuel hfa
  refine ⟨a.contents, b.contents, _, traverse_eq_contents a ha hEa fuel hfa,
    traverse_eq_contents b hb hEb fuel hfb, heq, by simp, ?_, ?_⟩
  · intro h
    rw [h] at heq
    exact copyAssign_of_equals_true a b fuel heq
  · intro h0
    rw [eq_empty_of_size_zero a ha h0]
    exact ⟨b, copyAssign_empty b hb hEb fuel hfb, fun _ => rfl, rfl,
      fun _ => ⟨Iff.rfl, rfl⟩, hb.reachable.wf.size_eq⟩

/-- C18, amended, witness: copying `{2 -> "b"}` into the empty map. -/
theorem copyAssign_built_witness :
    Built (HashMap.empty : HashMap String) ∧ Built (single 2 "b") ∧
    (∀ i, (HashMap.empty : HashMap String).table i ≠ [] → i < TABLE_SIZE - 1) ∧
    (∀ i, (single 2 "b").table i ≠ [] → i < TABLE_SIZE - 1) ∧
    (HashMap.empty : HashMap String).size ≤ 1 ∧ (single 2 "b").size ≤ 1 ∧
    ∃ ta tb eq, (HashMap.empty : HashMap String).traverse 1 = some (.ok ta) ∧
      (single 2 "b").traverse 1 = some (.ok tb) ∧
      (HashMap.empty : HashMap String).equals (single 2 "b") 1 = some (.ok eq) ∧
      (eq = true ↔ (HashMap.empty : HashMap String).size = (single 2 "b").size ∧
        ta.map Prod.snd = tb.map Prod.snd) ∧
      (eq = true →
        (HashMap.empty : HashMap String).copyAssign (single 2 "b") 1
          = some (.ok HashMap.empty)) ∧
      ((HashMap.empty : HashMap String).size = 0 →
        ∃ r, (HashMap.empty : HashMap String).copyAssign (single 2 "b") 1 = some (.ok r) ∧
        (∀ i, r.table i = (single 2 "b").table i) ∧ r.size = (single 2 "b").size ∧
        (∀ key, (r.HasKey key ↔ (single 2 "b").HasKey key) ∧
          r.find key = (single 2 "b").find key) ∧
        r.size = r.chainTotal) :=
  ⟨Built.empty, single_built 2 (by decide) "b", fun i h => absurd rfl h,
    single_last 2 (by decide) "b", Nat.zero_le 1, Nat.le_refl 1,
    copyAssign_built HashMap.empty (single 2 "b") Built.empty (single_built 2 (by decide) "b")
      (fun i h => absurd rfl h) (single_last 2 (by decide) "b") 1 (Nat.zero_le 1)
      (Nat.le_refl 1)⟩

theorem reachableFind_wf [Inhabited V] {m : HashMap V} (h : ReachableFind m) : m.WF := by
  induction h with
  | empty => exact WF_empty
  | index key _ hstep ih => exact WF_index ih key hstep
  | assign key v _ hstep ih => exact WF_assign ih key v hstep
  | remove key _ hstep ih => exact WF_remove ih key hstep
  | @removeFound m m' c key _ _ hstep ih =>
    obtain ⟨hi, hp, rfl⟩ := removeAt_ok ih.endIndex_lt c hstep
    exact WF_erase m ih _ _ hi hp

/-- C20: in every map reachable from the empty map by index-or-insert, `remove(key)` and
`remove(find(key))` calls (a call returns only for a key whose hash is inside the table), every
entry stored in bucket `i` has hash `i`, and two entries with equal keys, wherever they are in
the table, are one and the same entry. -/
theorem chains_well_formed [Inhabited V] (m : HashMap V) (hm : ReachableFind m) :
    (∀ i, ∀ e ∈ m.table i, getHash e.1 = i) ∧
    ∀ (i j p q : Nat) (x y : Int × V), (m.table i)[p]? = some x →
      (m.table j)[q]? = some y → x.1 = y.1 → i = j ∧ p = q := by
  have wf := reachableFind_wf hm
  refine ⟨fun i e he => (wf.hash_eq i e he).1, ?_⟩
  intro i j p q x y hx hy hxy
  have hi := (wf.hash_eq i x (List.getElem?_mem hx)).1
  have hj := (wf.hash_eq j y (List.getElem?_mem hy)).1
  have hij : i = j := by rw [← hi, ← hj, hxy]
  subst hij
  refine ⟨rfl, ?_⟩
  have hp : p < ((m.table i).map Prod.fst).length := by
    rw [List.length_map]
    exact (List.getElem?_eq_some_iff.mp hx).1
  apply List.getElem?_inj hp (wf.nodup i)
  rw [List.getElem?_map, List.getElem?_map, hx, hy]
  simp [hxy]

/-- C20, witness: the map left by `map[1] = "a"; map[2] = "b"; remove(find(1))`. -/
theorem chains_well_formed_witness :
    ReachableFind pair2less1 ∧
    (∀ i, ∀ e ∈ pair2less1.table i, getHash e.1 = i) ∧
    ∀ (i j p q : Nat) (x y : Int × String), (pair2less1.table i)[p]? = some x →
      (pair2less1.table j)[q]? = some y → x.1 = y.1 → i = j ∧ p = q :=
  ⟨.removeFound 1 (.assign 2 "b" (.assign 1 "a" .empty pair1_step) pair2_step)
      (rfl : pair2.find 1 = .ok ⟨1, 0⟩) rfl,
    chains_well_formed pair2less1
      (.removeFound 1 (.assign 2 "b" (.assign 1 "a" .empty pair1_step) pair2_step)
        (rfl : pair2.find 1 = .ok ⟨1, 0⟩) rfl)⟩

end aisdi
